import Mathlib

/-!
Verification development for the Radiology-Templates Rust converters
(`rust_converters/src/bin/convert_to_markdown.rs`, `convert_to_docx.rs`,
`convert_to_txt.rs`, `convert_txt_to_markdown.rs`).

Strings are embedded as `List Char`.  Rust's Unicode case mapping and
`char::is_alphanumeric` are modelled by their ASCII restrictions (all inputs
appearing in the claims are covered by the ASCII behaviour); `str::len` (a
byte count) is modelled by the UTF-8 byte size of the character list.
Each Rust regex used by the converters is embedded as a hand-written scanner
implementing exactly that regex's leftmost, non-overlapping `replace_all`
(or `is_match`) semantics on the character list.
-/

namespace RadiologyTemplates

/-- The ASCII whitespace characters recognised by Rust's `\s` regex class and
by `str::trim` (`0x09`–`0x0D` and space).  All inputs in this development are
ASCII, where Rust's Unicode definitions coincide with this set. -/
def isWs (c : Char) : Bool :=
  c = ' ' || c = '\t' || c = '\n' || c = '\r' ||
    c = Char.ofNat 0x0B || c = Char.ofNat 0x0C

def isAsciiAlphaLower (c : Char) : Bool :=
  'a' ≤ c && c ≤ 'z'

def isAsciiAlphaUpper (c : Char) : Bool :=
  'A' ≤ c && c ≤ 'Z'

/-- The regex class `[a-zA-Z]`. -/
def isAsciiAlpha (c : Char) : Bool :=
  isAsciiAlphaLower c || isAsciiAlphaUpper c

/-- The regex class `\d`. -/
def isDigit (c : Char) : Bool :=
  '0' ≤ c && c ≤ '9'

/-- Rust `char::is_alphanumeric`, restricted to ASCII. -/
def isAlphanumeric (c : Char) : Bool :=
  isAsciiAlpha c || isDigit c

/-- Rust `char::to_lowercase`, restricted to ASCII (non-ASCII characters are
left unchanged, which agrees with Rust on every character occurring in the
claims' inputs). -/
def toLowerChar (c : Char) : Char :=
  if isAsciiAlphaUpper c then Char.ofNat (c.toNat + 32) else c

/-- Rust `char::to_uppercase`, restricted to ASCII. -/
def toUpperChar (c : Char) : Char :=
  if isAsciiAlphaLower c then Char.ofNat (c.toNat - 32) else c

def toLower (l : List Char) : List Char :=
  l.map toLowerChar

def toUpper (l : List Char) : List Char :=
  l.map toUpperChar

/-- Rust `str::trim_start`. -/
def trimStart (l : List Char) : List Char :=
  l.dropWhile isWs

/-- Rust `str::trim`. -/
def trim (l : List Char) : List Char :=
  ((l.dropWhile isWs).reverse.dropWhile isWs).reverse

/-- Rust `str::len`: the UTF-8 byte length of the string. -/
def utf8Len (l : List Char) : Nat :=
  (l.map Char.utf8Size).sum

/-- Splitting at `'\n'` (every `'\n'` is a separator; yields one more piece
than there are newlines). -/
def splitNl : List Char → List (List Char)
  | [] => [[]]
  | c :: rest =>
    if c = '\n' then [] :: splitNl rest
    else
      match splitNl rest with
      | [] => [[c]]
      | h :: t => (c :: h) :: t

/-- Strip one trailing carriage return (the `\r` of a `\r\n` ending). -/
def stripCr (p : List Char) : List Char :=
  if p.getLast? = some '\r' then p.dropLast else p

/-- Rust `str::lines`: split at `'\n'`; every piece but the last was
newline-terminated and loses a trailing `'\r'`; a final empty piece (from a
trailing line ending) is dropped, and a final non-empty piece is kept
verbatim. -/
def rustLines (l : List Char) : List (List Char) :=
  let parts := splitNl l
  let init := parts.dropLast.map stripCr
  match parts.getLast? with
  | some [] => init
  | some last => init ++ [last]
  | none => init

/-- The `join("\n")` used by the converters to assemble a file from its
lines. -/
def joinLines : List (List Char) → List Char
  | [] => []
  | [l] => l
  | l :: l2 :: rest => l ++ '\n' :: joinLines (l2 :: rest)

/-- Rust `str::contains(&str)`: substring containment. -/
def containsSub (hay needle : List Char) : Bool :=
  decide (needle <:+: hay)

end RadiologyTemplates

namespace ConvertToDocx

open RadiologyTemplates

/-- `enum Alignment` of `convert_to_docx.rs`. -/
inductive Alignment where
  | justify
  | center
deriving DecidableEq, Repr

/-- A run as emitted by `append_run`: its text, whether `bold(true)` was set,
whether `italics(true)` was set (the source sets it when `italic ||
force_italic`), and the half-point font size (`font_size_pt * 2`). -/
structure MRun where
  text : List Char
  bold : Bool
  italic : Bool
  sizeHalf : Int
deriving DecidableEq, Repr

/-- Paragraph content: a formatted run (`Run::push` in the source) or a bare
text node (`Paragraph::push_text`, used only for the empty paragraph). -/
inductive PC where
  | run : MRun → PC
  | text : List Char → PC
deriving DecidableEq, Repr

/-- A paragraph as pushed into the output document: its justification and its
content in order. -/
structure DPara where
  align : Alignment
  content : List PC
deriving DecidableEq, Repr

/-- `normalize_heading`: strip leading whitespace, and if the rest starts
with `'#'`, drop the whole leading run of `'#'` and trim the remainder,
reporting `true` (heading); otherwise return the line unchanged. -/
def normalize_heading (line : List Char) : List Char × Bool :=
  let stripped := trimStart line
  if stripped.head? = some '#' then
    ((stripped.dropWhile fun c => c = '#').reverse.dropWhile isWs
       |>.reverse.dropWhile isWs, true)
  else
    (line, false)

/-- `append_run`: skip empty text, otherwise append one run carrying the
current flags (italics is set when `italic || force_italic`) and the
half-point size. -/
def append_run (para : List MRun) (text : List Char) (bold italic : Bool)
    (force_italic : Bool) (font_size_pt : Int) : List MRun :=
  if text = [] then para
  else para ++ [⟨text, bold, italic || force_italic, font_size_pt * 2⟩]

/-- The toggle scanner of `add_markdown_paragraph`: two identical consecutive
`'*'`/`'_'` toggle bold (consuming both), a single one toggles italic, any
other character accumulates in the buffer; each toggle flushes the buffer as
a run carrying the pre-toggle flags. -/
def scanChars (fi : Bool) (pt : Int) :
    List MRun → List Char → Bool → Bool → List Char → List MRun
  | para, buffer, b, i, [] => append_run para buffer b i fi pt
  | para, buffer, b, i, [c] =>
    if c = '*' || c = '_' then
      scanChars fi pt (append_run para buffer b i fi pt) [] b (!i) []
    else
      scanChars fi pt para (buffer ++ [c]) b i []
  | para, buffer, b, i, c1 :: c2 :: rest =>
    if (c1 = '*' || c1 = '_') && c1 = c2 then
      scanChars fi pt (append_run para buffer b i fi pt) [] (!b) i rest
    else if c1 = '*' || c1 = '_' then
      scanChars fi pt (append_run para buffer b i fi pt) [] b (!i) (c2 :: rest)
    else
      scanChars fi pt para (buffer ++ [c1]) b i (c2 :: rest)

/-- `add_markdown_paragraph`: normalise the heading, emit one empty text node
for an empty line, otherwise run the toggle scanner (bold starts at the
heading flag) and emit the collected runs. -/
def add_markdown_paragraph (raw_line : List Char) (alignment : Alignment)
    (force_italic : Bool) (font_size_pt : Int) : DPara :=
  let nh := normalize_heading raw_line
  if nh.1 = [] then
    ⟨alignment, [PC.text []]⟩
  else
    ⟨alignment,
      (scanChars force_italic font_size_pt [] [] nh.2 false nh.1).map PC.run⟩

/-- Index of the first line whose trimmed form is non-empty
(the source's `enumerate().find(..)`). -/
def first_written : List (List Char) → Option Nat
  | [] => none
  | l :: rest =>
    if trim l = [] then (first_written rest).map (· + 1) else some 0

/-- Index of the last line whose trimmed form is non-empty
(the source's `enumerate().rev().find(..)`). -/
def last_written : List (List Char) → Option Nat
  | [] => none
  | l :: rest =>
    match last_written rest with
    | some j => some (j + 1)
    | none => if trim l = [] then none else some 0

/-- The per-line conversion of `convert_file`'s loop, with the current index
and the first/last non-blank indices: the position-dependent overlay (first
non-blank line centered; last non-blank line centered, forced italic, 8 pt;
everything else justified at 10 pt). -/
def convert_line (fw lw : Option Nat) (idx : Nat) (line : List Char) : DPara :=
  let a1 := if fw = some idx then Alignment.center else Alignment.justify
  let isLast := lw = some idx
  add_markdown_paragraph line
    (if isLast then Alignment.center else a1)
    isLast
    (if isLast then 8 else 10)

/-- The `enumerate()` loop of `convert_file`. -/
def convert_lines (fw lw : Option Nat) : Nat → List (List Char) → List DPara
  | _, [] => []
  | idx, l :: rest => convert_line fw lw idx l :: convert_lines fw lw (idx + 1) rest

/-- `convert_file`, up to the document it builds: an empty file yields one
empty justified paragraph; otherwise each line is converted by the
position-dependent loop. -/
def convert_file (content : List Char) : List DPara :=
  let lines := rustLines content
  if lines = [] then
    [⟨Alignment.justify, [PC.text []]⟩]
  else
    convert_lines (first_written lines) (last_written lines) 0 lines

/-- The texts of the runs of a paragraph, concatenated in order (bare text
nodes carry no run). -/
def runsText (p : DPara) : List Char :=
  (p.content.map fun pc =>
    match pc with
    | PC.run r => r.text
    | PC.text _ => []).flatten

/-- The runs of a paragraph, in order. -/
def runsOf (p : DPara) : List MRun :=
  p.content.filterMap fun pc =>
    match pc with
    | PC.run r => some r
    | PC.text _ => none

end ConvertToDocx

namespace ConvertToMarkdown

open RadiologyTemplates

/-- The left and right brace characters (`0x7B`, `0x7D`). -/
def lbrace : Char := Char.ofNat 123

def rbrace : Char := Char.ofNat 125

def quoteChar : Char := Char.ofNat 39

/-- `docx_rust::formatting::UnderlineStyle`, collapsed to the three cases the
converters distinguish: the explicit no-underline value, the default single
style, and a representative of every other style (all of which the source
treats alike via `Some(_) => true`). -/
inductive UnderlineStyle where
  | styleNone
  | single
  | otherStyle
deriving DecidableEq, Repr

/-- `docx_rust::formatting::Bold` (field `value : Option<bool>`). -/
structure Bold where
  value : Option Bool
deriving DecidableEq, Repr

/-- `docx_rust::formatting::Italics` (field `value : Option<bool>`). -/
structure Italics where
  value : Option Bool
deriving DecidableEq, Repr

/-- `docx_rust::formatting::Underline` (field `val : Option<UnderlineStyle>`). -/
structure Underline where
  val : Option UnderlineStyle
deriving DecidableEq, Repr

/-- The run-level character property: the three formatting attributes read by
the converters. -/
structure CharacterProperty where
  bold : Option Bold
  italics : Option Italics
  underline : Option Underline
deriving DecidableEq, Repr

/-- A docx run as read by the converters: its text and optional property. -/
structure DocxRun where
  text : List Char
  property : Option CharacterProperty
deriving DecidableEq, Repr

/-- A docx paragraph.  Only `ParagraphContent::Run` children are modelled
(the claims quantify over paragraphs built purely from runs); `p.text()` is
then the concatenation of the run texts. -/
structure DocxParagraph where
  runs : List DocxRun
deriving DecidableEq, Repr

/-- `Paragraph::text()` for a run-only paragraph. -/
def paraText (p : DocxParagraph) : List Char :=
  (p.runs.map DocxRun.text).flatten

/-- `bold_is_on`: absent means off; present means the explicit value, or on
when no value is given. -/
def bold_is_on (flag : Option Bold) : Bool :=
  match flag with
  | none => false
  | some b => b.value.getD true

/-- `italics_is_on`. -/
def italics_is_on (flag : Option Italics) : Bool :=
  match flag with
  | none => false
  | some i => i.value.getD true

/-- `underline_is_on`: absent means off; an explicit `None` style means off;
any other present style, or no style value, means on. -/
def underline_is_on (flag : Option Underline) : Bool :=
  match flag with
  | none => false
  | some u =>
    match u.val with
    | some UnderlineStyle.styleNone => false
    | some _ => true
    | none => true

/-- The per-run wrapping of `paragraph_to_markdown`: bold innermost, then
italic, then underline. -/
def run_to_markdown (run : DocxRun) : List Char :=
  match run.property with
  | none => run.text
  | some prop =>
    let t := run.text
    let t := if bold_is_on prop.bold then "**".toList ++ t ++ "**".toList else t
    let t := if italics_is_on prop.italics then "*".toList ++ t ++ "*".toList else t
    let t := if underline_is_on prop.underline then "__".toList ++ t ++ "__".toList else t
    t

/-- `paragraph_to_markdown` of `convert_to_markdown.rs`: a paragraph whose
aggregate text trims to empty yields a blank line; otherwise the non-empty
runs are wrapped and concatenated, falling back to the aggregate text when
no run carries text. -/
def paragraph_to_markdown (p : DocxParagraph) : List Char :=
  let plain := paraText p
  if trim plain = [] then []
  else
    let text_parts := p.runs.filterMap fun run =>
      if run.text = [] then none else some (run_to_markdown run)
    if text_parts = [] then plain else text_parts.flatten

/-- `convert_docx_to_markdown`, as the list of per-paragraph Markdown lines
(the source then joins them with a newline). -/
def docx_to_markdown_lines (doc : List DocxParagraph) : List (List Char) :=
  doc.map paragraph_to_markdown

/-- `convert_docx_to_markdown`: the joined Markdown text. -/
def convert_docx_to_markdown (doc : List DocxParagraph) : List Char :=
  joinLines (docx_to_markdown_lines doc)

/-! ### The RTF cleanup pipeline of `convert_rtf_to_markdown`

Each Rust regex is embedded as a scanner with that regex's leftmost,
non-overlapping `replace_all` semantics. -/

/-- One step of the scan for the regex `\x7b[^\x7b\x7d]*\x7d` (innermost
brace group).  The state is the reversed output so far plus, when a `{` has
been seen with no brace after it, the reversed buffer of characters
following it. -/
def rgStep : List Char × Option (List Char) → Char → List Char × Option (List Char)
  | (acc, none), c =>
    if c = lbrace then (acc, some []) else (c :: acc, none)
  | (acc, some buf), c =>
    if c = lbrace then (buf ++ lbrace :: acc, some [])
    else if c = rbrace then (acc, none)
    else (acc, some (c :: buf))

/-- The output string denoted by a scan state. -/
def rgOut : List Char × Option (List Char) → List Char
  | (acc, none) => acc.reverse
  | (acc, some buf) => acc.reverse ++ lbrace :: buf.reverse

/-- `re_group.replace_all(text, "")`: remove every innermost brace group. -/
def removeGroupsOnce (l : List Char) : List Char :=
  rgOut (l.foldl rgStep ([], none))

/-- `rgStep` either appends exactly the consumed character to the denoted
output or strictly shrinks it (when a group closes and is dropped). -/
theorem rgStep_out (st : List Char × Option (List Char)) (c : Char) :
    rgOut (rgStep st c) = rgOut st ++ [c] ∨
      (rgOut (rgStep st c)).length < (rgOut st).length + 1 := by
  obtain ⟨acc, pend⟩ := st
  have hbr : ¬(rbrace = lbrace) := by decide
  cases pend with
  | none =>
    by_cases h : c = lbrace <;> simp [rgStep, rgOut, h]
  | some buf =>
    by_cases h : c = lbrace
    · simp [rgStep, rgOut, h]
    · by_cases h2 : c = rbrace
      · right
        simp [rgStep, rgOut, h, h2, hbr]
        omega
      · simp [rgStep, rgOut, h, h2]

/-- Scanning never lengthens the denoted output by more than the consumed
input. -/
theorem rgFoldl_out_le (l : List Char) :
    ∀ st : List Char × Option (List Char),
      (rgOut (l.foldl rgStep st)).length ≤ (rgOut st).length + l.length := by
  induction l with
  | nil => intro st; simp
  | cons c rest ih =>
    intro st
    have h2 := ih (rgStep st c)
    have hle : (rgOut (rgStep st c)).length ≤ (rgOut st).length + 1 := by
      rcases rgStep_out st c with h | h
      · rw [h]; simp
      · omega
    rw [List.foldl_cons]
    simp only [List.length_cons]
    omega

/-- Scanning either reproduces the input after the current state's output or
strictly shrinks. -/
theorem rgFoldl_out (l : List Char) :
    ∀ st : List Char × Option (List Char),
      rgOut (l.foldl rgStep st) = rgOut st ++ l ∨
        (rgOut (l.foldl rgStep st)).length < (rgOut st).length + l.length := by
  induction l with
  | nil => intro st; simp
  | cons c rest ih =>
    intro st
    rcases rgStep_out st c with h | h
    · rcases ih (rgStep st c) with h2 | h2
      · left
        rw [List.foldl_cons, h2, h]
        simp
      · right
        rw [List.foldl_cons]
        have hl : (rgOut (rgStep st c)).length = (rgOut st).length + 1 := by
          rw [h]; simp
        simp only [List.length_cons]
        omega
    · right
      have h3 := rgFoldl_out_le rest (rgStep st c)
      rw [List.foldl_cons]
      simp only [List.length_cons]
      omega

/-- One pass of group removal returns the input unchanged or something
strictly shorter. -/
theorem removeGroupsOnce_eq_or_lt (l : List Char) :
    removeGroupsOnce l = l ∨ (removeGroupsOnce l).length < l.length := by
  have h := rgFoldl_out l ([], none)
  simpa [removeGroupsOnce, rgOut] using h

/-- The `while` loop around `re_group.replace_all`: repeat while braces of
both kinds remain, stopping at the first pass that changes nothing. -/
def removeGroupsLoop (s : List Char) : List Char :=
  if lbrace ∈ s ∧ rbrace ∈ s then
    let new := removeGroupsOnce s
    if _h : new = s then s
    else removeGroupsLoop new
  else s
termination_by s.length
decreasing_by
  rcases removeGroupsOnce_eq_or_lt s with h2 | h2
  · exact absurd h2 _h
  · exact h2

theorem removeGroupsLoop_of_no_brace (s : List Char)
    (h : ¬(lbrace ∈ s ∧ rbrace ∈ s)) : removeGroupsLoop s = s := by
  rw [removeGroupsLoop]
  simp [h]

/-- Scanner modes for the regex of RTF control words
(backslash, letters, optional digits, optional trailing whitespace). -/
inductive CWMode where
  | normal
  | sawBS
  | inLetters
  | inDigits
  | inWsTail
deriving DecidableEq, Repr

/-- One step of the control-word scan.  The accumulator is the reversed
output; a completed match is emitted as a single space. -/
def cwStep : List Char × CWMode → Char → List Char × CWMode
  | (acc, CWMode.normal), c =>
    if c = '\\' then (acc, CWMode.sawBS) else (c :: acc, CWMode.normal)
  | (acc, CWMode.sawBS), c =>
    if isAsciiAlpha c then (acc, CWMode.inLetters)
    else if c = '\\' then ('\\' :: acc, CWMode.sawBS)
    else (c :: '\\' :: acc, CWMode.normal)
  | (acc, CWMode.inLetters), c =>
    if isAsciiAlpha c then (acc, CWMode.inLetters)
    else if isDigit c then (acc, CWMode.inDigits)
    else if isWs c then (acc, CWMode.inWsTail)
    else if c = '\\' then (' ' :: acc, CWMode.sawBS)
    else (c :: ' ' :: acc, CWMode.normal)
  | (acc, CWMode.inDigits), c =>
    if isDigit c then (acc, CWMode.inDigits)
    else if isWs c then (acc, CWMode.inWsTail)
    else if c = '\\' then (' ' :: acc, CWMode.sawBS)
    else (c :: ' ' :: acc, CWMode.normal)
  | (acc, CWMode.inWsTail), c =>
    if isWs c then (acc, CWMode.inWsTail)
    else if c = '\\' then (' ' :: acc, CWMode.sawBS)
    else (c :: ' ' :: acc, CWMode.normal)

/-- `re_cmd.replace_all(text, " ")`: replace every RTF control word
(backslash + letters + optional digits + optional trailing whitespace, all
runs taken greedily) with one space. -/
def removeControlWords (l : List Char) : List Char :=
  match l.foldl cwStep ([], CWMode.normal) with
  | (acc, CWMode.normal) => acc.reverse
  | (acc, CWMode.sawBS) => ('\\' :: acc).reverse
  | (acc, _) => (' ' :: acc).reverse

/-- `re_brace_cmd.replace_all(text, "")`: remove escaped braces
(backslash followed by a brace). -/
def removeBraceEscapes : List Char → List Char
  | [] => []
  | [c] => [c]
  | c1 :: c2 :: rest =>
    if c1 = '\\' && (c2 = lbrace || c2 = rbrace) then removeBraceEscapes rest
    else c1 :: removeBraceEscapes (c2 :: rest)

/-- The regex class `[0-9a-fA-F]`. -/
def isHexDigit (c : Char) : Bool :=
  isDigit c || ('a' ≤ c && c ≤ 'f') || ('A' ≤ c && c ≤ 'F')

/-- `re_hex.replace_all(text, "")`: remove hex escapes (backslash,
single-quote, two hex digits). -/
def removeHexEscapes : List Char → List Char
  | c1 :: c2 :: c3 :: c4 :: rest =>
    if c1 = '\\' && c2 = quoteChar && isHexDigit c3 && isHexDigit c4 then
      removeHexEscapes rest
    else c1 :: removeHexEscapes (c2 :: c3 :: c4 :: rest)
  | l => l

/-- Scanner state for the loose-number regex (whitespace run, digit run,
whitespace run): the reversed output plus the pending partial match
(buffers reversed). -/
inductive LNMode where
  | normal
  | inWsRun : List Char → LNMode
  | inNum : List Char → List Char → LNMode
  | inTailWs
deriving DecidableEq, Repr

def lnStep : List Char × LNMode → Char → List Char × LNMode
  | (acc, LNMode.normal), c =>
    if isWs c then (acc, LNMode.inWsRun [c]) else (c :: acc, LNMode.normal)
  | (acc, LNMode.inWsRun buf), c =>
    if isWs c then (acc, LNMode.inWsRun (c :: buf))
    else if isDigit c then (acc, LNMode.inNum buf [c])
    else (c :: buf ++ acc, LNMode.normal)
  | (acc, LNMode.inNum wbuf dbuf), c =>
    if isDigit c then (acc, LNMode.inNum wbuf (c :: dbuf))
    else if isWs c then (acc, LNMode.inTailWs)
    else (c :: dbuf ++ wbuf ++ acc, LNMode.normal)
  | (acc, LNMode.inTailWs), c =>
    if isWs c then (acc, LNMode.inTailWs)
    else (c :: ' ' :: acc, LNMode.normal)

/-- `re_nums.replace_all(text, " ")`: replace every token made of a
whitespace run, a digit run and a whitespace run with one space. -/
def removeLooseNumbers (l : List Char) : List Char :=
  match l.foldl lnStep ([], LNMode.normal) with
  | (acc, LNMode.normal) => acc.reverse
  | (acc, LNMode.inWsRun buf) => (buf ++ acc).reverse
  | (acc, LNMode.inNum wbuf dbuf) => (dbuf ++ wbuf ++ acc).reverse
  | (acc, LNMode.inTailWs) => (' ' :: acc).reverse

/-- The control characters stripped from each line
(`c <= 0x1F` or `0x7F..=0x9F`). -/
def isControlChar (c : Char) : Bool :=
  c.toNat ≤ 0x1F || (0x7F ≤ c.toNat && c.toNat ≤ 0x9F)

/-- The font-name literals dropped as noise (compared case-insensitively). -/
def fontNames : List (List Char) :=
  ["times new roman", "arial", "calibri", "helvetica", "trebuchet ms",
    "cambria", "times"].map String.toList

/-- `re_only_words` (`[a-z\s]` one or more times, then an optional closing
brace, anchored at both ends), tested with `is_match`. -/
def only_words_match (l : List Char) : Bool :=
  let cls := fun c => isAsciiAlphaLower c || isWs c
  if l.getLast? = some rbrace then
    !(l.dropLast).isEmpty && (l.dropLast).all cls
  else
    !l.isEmpty && l.all cls

/-- `re_only_nums` (digits, whitespace and hyphens only, non-empty). -/
def only_nums_match (l : List Char) : Bool :=
  !l.isEmpty && l.all fun c => isDigit c || isWs c || c = '-'

/-- `re_spaces.replace_all(line, " ")`: collapse every whitespace run to a
single space. -/
def collapseSpacesAux : Bool → List Char → List Char
  | _, [] => []
  | prevWs, c :: rest =>
    if isWs c then
      if prevWs then collapseSpacesAux true rest
      else ' ' :: collapseSpacesAux true rest
    else c :: collapseSpacesAux false rest

def collapse_spaces (l : List Char) : List Char :=
  collapseSpacesAux false l

/-- `re_stray_words_start.replace_all(line, "")`: strip a leading pattern of
letters, whitespace, letters, whitespace (anchored at the start, each run
non-empty and maximal). -/
def strip_stray_words_start (l : List Char) : List Char :=
  let r1 := l.dropWhile isAsciiAlpha
  let r2 := r1.dropWhile isWs
  let r3 := r2.dropWhile isAsciiAlpha
  let r4 := r3.dropWhile isWs
  if !(l.takeWhile isAsciiAlpha).isEmpty && !(r1.takeWhile isWs).isEmpty &&
      !(r2.takeWhile isAsciiAlpha).isEmpty && !(r3.takeWhile isWs).isEmpty then
    r4
  else l

/-- `re_brace_end.replace_all(line, "")`: strip a trailing closing brace
together with the whitespace around it. -/
def strip_brace_end (l : List Char) : List Char :=
  let r1 := l.reverse.dropWhile isWs
  match r1 with
  | c :: rest => if c = rbrace then (rest.dropWhile isWs).reverse else l
  | [] => l

/-- `re_brace_start.replace_all(line, "")`: strip a leading opening brace
together with the whitespace around it. -/
def strip_brace_start (l : List Char) : List Char :=
  let r1 := l.dropWhile isWs
  match r1 with
  | c :: rest => if c = lbrace then rest.dropWhile isWs else l
  | [] => l

/-- The regex class `[\d\-]`. -/
def isNumDash (c : Char) : Bool :=
  isDigit c || c = '-'

/-- `re_nums_start.replace_all(line, "")`: strip a leading numeric token
(optional whitespace, digits/hyphens, mandatory trailing whitespace). -/
def strip_nums_start (l : List Char) : List Char :=
  let r1 := l.dropWhile isWs
  let r2 := r1.dropWhile isNumDash
  if !(r1.takeWhile isNumDash).isEmpty && !(r2.takeWhile isWs).isEmpty then
    r2.dropWhile isWs
  else l

/-- `re_nums_end.replace_all(line, "")`: strip a trailing numeric token
(mandatory whitespace, digits/hyphens, optional trailing whitespace). -/
def strip_nums_end (l : List Char) : List Char :=
  let r1 := l.reverse.dropWhile isWs
  let r2 := r1.dropWhile isNumDash
  if !(r1.takeWhile isNumDash).isEmpty && !(r2.takeWhile isWs).isEmpty then
    (r2.dropWhile isWs).reverse
  else l

/-- The per-line part of the cleanup: trim and strip control characters,
keep a blank marker for empty lines, drop noise lines, and apply the
per-line cleanup regexes; `none` means the line is dropped. -/
def clean_rtf_line (raw : List Char) : Option (List Char) :=
  let line := trim ((trim raw).filter fun c => !isControlChar c)
  if line = [] then some []
  else
    let lower := toLower line
    if fontNames.contains lower
        || only_words_match lower
        || only_nums_match line
        || (line.filter fun c => c = rbrace).length >
            (line.filter fun c => c = ' ').length
        || (utf8Len line < 3 && !(line.all isAlphanumeric)) then
      none
    else
      let line := collapse_spaces line
      let line := strip_stray_words_start line
      let line := strip_brace_end line
      let line := strip_brace_start line
      let line := strip_nums_start line
      let line := strip_nums_end line
      if trim line = [] then none else some (trim line)

/-- The whole cleanup pipeline of `convert_rtf_to_markdown`, from the raw
text to the vector `cleaned_lines`. -/
def rtf_cleanup (text : List Char) : List (List Char) :=
  let t := removeGroupsLoop text
  let t := removeControlWords t
  let t := removeBraceEscapes t
  let t := removeHexEscapes t
  let t := removeLooseNumbers t
  (rustLines t).filterMap clean_rtf_line

/-- The section keywords searched for (case-insensitively) in a line. -/
def sectionKeywords : List (List Char) :=
  ["indicação clínica", "técnica do exame", "aspectos observados",
    "impressão"].map String.toList

/-- The prefixes that make a section line bold. -/
def startKeywords : List (List Char) :=
  ["indicação", "técnica", "aspectos", "impressão"].map String.toList

/-- The classification of one surviving non-blank line into Markdown. -/
def classify_line (line : List Char) : List Char :=
  let upper := toUpper line
  let lower := toLower line
  if upper = line && utf8Len line > 15 && utf8Len line < 120 &&
      !(line.getLast? = some '.') &&
      (containsSub upper ("TOMOGRAFIA").toList ||
        containsSub upper ("ANGIO").toList ||
        containsSub upper ("COMPUTADORIZADA").toList) then
    "## ".toList ++ line
  else if sectionKeywords.any fun k => containsSub lower k then
    if upper = line && utf8Len line > 10 then
      "## ".toList ++ line
    else if startKeywords.any fun k => k.isPrefixOf lower then
      "**".toList ++ line ++ "**".toList
    else line
  else if containsSub lower ("probabilidade").toList ||
      containsSub lower ("médico").toList ||
      containsSub lower ("diagnóstica").toList then
    "*".toList ++ line ++ "*".toList
  else line

/-- The Markdown-formatting loop over the cleaned lines. -/
def rtf_classify (cleaned : List (List Char)) : List (List Char) :=
  cleaned.map fun line => if line = [] then [] else classify_line line

/-- The final pass: collapse runs of blank output lines to one blank line. -/
def collapse_blank_lines : Bool → List (List Char) → List (List Char)
  | _, [] => []
  | prevEmpty, l :: rest =>
    if trim l = [] then
      if prevEmpty then collapse_blank_lines true rest
      else [] :: collapse_blank_lines true rest
    else l :: collapse_blank_lines false rest

/-- `convert_rtf_to_markdown`: cleanup, classification, blank collapsing,
and the final join. -/
def convert_rtf_to_markdown (text : List Char) : List Char :=
  joinLines (collapse_blank_lines false (rtf_classify (rtf_cleanup text)))

end ConvertToMarkdown

namespace ConvertToTxt

open RadiologyTemplates

/-- Rust `str::replace` with a single-character pattern and empty
replacement. -/
def replace_char : List Char → Char → List Char
  | [], _ => []
  | c :: rest, t =>
    if c = t then replace_char rest t else c :: replace_char rest t

/-- `clean_markdown_text` of `convert_to_txt.rs`: delete `'*'` then `'#'`. -/
def clean_markdown_text (text : List Char) : List Char :=
  replace_char (replace_char text '*') '#'

/-- The per-run wrapping of `paragraph_to_markdown` in `convert_to_txt.rs`:
unlike the markdown converter, it wraps on mere presence of each formatting
attribute (`is_some`), ignoring explicit disabling values. -/
def run_to_markdown (run : ConvertToMarkdown.DocxRun) : List Char :=
  match run.property with
  | none => run.text
  | some prop =>
    let t := run.text
    let t := if prop.bold.isSome then "**".toList ++ t ++ "**".toList else t
    let t := if prop.italics.isSome then "*".toList ++ t ++ "*".toList else t
    let t := if prop.underline.isSome then "__".toList ++ t ++ "__".toList else t
    t

/-- `paragraph_to_markdown` of `convert_to_txt.rs`. -/
def paragraph_to_markdown (p : ConvertToMarkdown.DocxParagraph) : List Char :=
  let plain := ConvertToMarkdown.paraText p
  if trim plain = [] then []
  else
    let text_parts := p.runs.filterMap fun run =>
      if run.text = [] then none else some (run_to_markdown run)
    if text_parts = [] then plain else text_parts.flatten

end ConvertToTxt

namespace ConvertTxtToMarkdown

open RadiologyTemplates

/-- `SECTION_PREFIXES` of `convert_txt_to_markdown.rs`. -/
def SECTION_PREFIXES : List (List Char) :=
  ["técnica do exame:", "aspectos observados:", "impressão:",
    "informe clínico:", "indicação clínica:", "indicação:"].map String.toList

/-- The vector `nonempty_indices` built by `find_first_last_nonempty`, with
the index of the first listed line given as an offset. -/
def nonempty_indices : Nat → List (List Char) → List Nat
  | _, [] => []
  | i, l :: rest =>
    if trim l = [] then nonempty_indices (i + 1) rest
    else i :: nonempty_indices (i + 1) rest

/-- `find_first_last_nonempty`: the indices of the first and last line whose
trimmed form is non-empty. -/
def find_first_last_nonempty (lines : List (List Char)) : Option (Nat × Nat) :=
  let ids := nonempty_indices 0 lines
  match ids.head?, ids.getLast? with
  | some a, some b => some (a, b)
  | _, _ => none

/-- `should_bold_section`: the trimmed lower-cased line starts with a
recognised section prefix, or ends with a colon at byte length at most
120. -/
def should_bold_section (line : List Char) : Bool :=
  let trimmed := trim (toLower line)
  SECTION_PREFIXES.any (fun p => p.isPrefixOf trimmed) ||
    (trimmed.getLast? = some ':' && utf8Len trimmed ≤ 120)

/-- The per-line formatting of `format_lines_as_markdown`'s loop, given the
first/last non-blank indices. -/
def format_line (fl : Option (Nat × Nat)) (idx : Nat) (line : List Char) :
    List Char :=
  let stripped := trim line
  if stripped = [] then []
  else
    let is_first := (fl.map Prod.fst) = some idx
    let is_last := (fl.map Prod.snd) = some idx
    if is_last then "*".toList ++ stripped ++ "*".toList
    else if is_first || should_bold_section stripped then
      "**".toList ++ stripped ++ "**".toList
    else stripped

/-- The `enumerate()` loop of `format_lines_as_markdown`. -/
def format_lines_loop (fl : Option (Nat × Nat)) :
    Nat → List (List Char) → List (List Char)
  | _, [] => []
  | idx, l :: rest => format_line fl idx l :: format_lines_loop fl (idx + 1) rest

/-- `format_lines_as_markdown`: blanks become empty lines, the last
non-blank line is italicised, the first non-blank line and recognised
section lines are bolded, everything else is emitted trimmed. -/
def format_lines_as_markdown (lines : List (List Char)) : List (List Char) :=
  format_lines_loop (find_first_last_nonempty lines) 0 lines

end ConvertTxtToMarkdown

namespace ConvertToMarkdown

open RadiologyTemplates

/-- The bold flag the reader derives for a run (property absent means no
formatting at all). -/
def runBold (r : DocxRun) : Bool :=
  match r.property with
  | none => false
  | some p => bold_is_on p.bold

/-- The italic flag the reader derives for a run. -/
def runItalic (r : DocxRun) : Bool :=
  match r.property with
  | none => false
  | some p => italics_is_on p.italics

/-- The underline flag the reader derives for a run. -/
def runUnderline (r : DocxRun) : Bool :=
  match r.property with
  | none => false
  | some p => underline_is_on p.underline

end ConvertToMarkdown

namespace ConvertToDocx

open RadiologyTemplates

/-- The toggle-scanner decode of one Markdown line, with no position
overlay: `add_markdown_paragraph` as `convert_file` calls it for an
interior line (justified, no forced italic, base 10 pt size). -/
def decode_markdown_line (line : List Char) : DPara :=
  add_markdown_paragraph line Alignment.justify false 10

/-- The toggle-scanner decode of a whole Markdown text, line by line. -/
def decode_markdown (text : List Char) : List DPara :=
  (rustLines text).map decode_markdown_line

end ConvertToDocx

namespace RadiologyTemplates

theorem getLast?_mem_list {α : Type} {l : List α} {x : α}
    (h : l.getLast? = some x) : x ∈ l := by
  obtain ⟨hne, hx⟩ := List.mem_getLast?_eq_getLast (l := l) (x := x) h
  rw [hx]
  exact List.getLast_mem hne

theorem trim_eq_nil_iff (l : List Char) :
    trim l = [] ↔ ∀ c ∈ l, isWs c := by
  unfold trim
  constructor
  · intro h c hc
    have h2 : (l.dropWhile isWs).reverse.dropWhile isWs = [] := by
      simpa using h
    have h3 : ∀ x ∈ (l.dropWhile isWs).reverse, isWs x := by
      simpa [List.dropWhile_eq_nil_iff] using h2
    have h4 : c ∈ l.takeWhile isWs ∨ c ∈ l.dropWhile isWs := by
      rw [← List.mem_append, List.takeWhile_append_dropWhile]
      exact hc
    rcases h4 with h4 | h4
    · exact List.mem_takeWhile_imp h4
    · exact h3 c (List.mem_reverse.mpr h4)
  · intro h
    have h2 : l.dropWhile isWs = [] := by
      rw [List.dropWhile_eq_nil_iff]
      exact fun x hx => h x hx
    simp [h2]

theorem trim_ne_nil_of_mem (l : List Char) (c : Char) (hc : c ∈ l)
    (hw : ¬ isWs c = true) : ¬ trim l = [] := by
  intro h
  exact hw ((trim_eq_nil_iff l).mp h c hc)

/-- Splitting a newline-free string yields the single piece. -/
theorem splitNl_no_nl (l : List Char) (h : '\n' ∉ l) : splitNl l = [l] := by
  induction l with
  | nil => rfl
  | cons c rest ih =>
    have hc : ¬ c = '\n' := fun hc => h (hc ▸ List.mem_cons_self c rest)
    have hr : '\n' ∉ rest := fun hr => h (List.mem_cons_of_mem c hr)
    rw [splitNl]
    simp [hc, ih hr]

/-- Splitting a string that starts with a newline-free piece and a newline. -/
theorem splitNl_append_nl (l t : List Char) (h : '\n' ∉ l) :
    splitNl (l ++ '\n' :: t) = l :: splitNl t := by
  induction l with
  | nil => simp [splitNl]
  | cons c rest ih =>
    have hc : ¬ c = '\n' := fun hc => h (hc ▸ List.mem_cons_self c rest)
    have hr : '\n' ∉ rest := fun hr => h (List.mem_cons_of_mem c hr)
    rw [List.cons_append, splitNl]
    simp only [hc, if_false]
    rw [ih hr]

theorem splitNl_joinLines (lines : List (List Char)) (hne : lines ≠ [])
    (h : ∀ l ∈ lines, '\n' ∉ l) : splitNl (joinLines lines) = lines := by
  induction lines with
  | nil => exact absurd rfl hne
  | cons l rest ih =>
    cases rest with
    | nil =>
      simpa [joinLines, List.intercalate] using
        splitNl_no_nl l (h l (List.mem_cons_self l []))
    | cons l2 rest2 =>
      have h1 : joinLines (l :: l2 :: rest2) = l ++ '\n' :: joinLines (l2 :: rest2) := rfl
      rw [h1, splitNl_append_nl l _ (h l (List.mem_cons_self l _))]
      rw [ih (by simp) fun x hx => h x (List.mem_cons_of_mem l hx)]

/-- Joining non-empty, newline- and carriage-return-free lines and reading
them back with Rust's `lines` recovers exactly the original lines. -/
theorem rustLines_joinLines (lines : List (List Char))
    (h : ∀ l ∈ lines, l ≠ [] ∧ '\n' ∉ l ∧ '\r' ∉ l) :
    rustLines (joinLines lines) = lines := by
  cases lines with
  | nil => rfl
  | cons l rest =>
    have hsplit := splitNl_joinLines (l :: rest) (by simp)
      fun x hx => (h x hx).2.1
    unfold rustLines
    rw [hsplit]
    have hne : (l :: rest : List (List Char)) ≠ [] := by simp
    have hgl : (l :: rest).getLast? = some ((l :: rest).getLast hne) :=
      List.getLast?_eq_getLast _ hne
    have hglmem : (l :: rest).getLast hne ∈ l :: rest := List.getLast_mem hne
    have hmap : (l :: rest).dropLast.map stripCr = (l :: rest).dropLast := by
      have hcong : ∀ x ∈ (l :: rest).dropLast, stripCr x = x := by
        intro x hx
        have hxmem : x ∈ l :: rest := (List.dropLast_sublist _).mem hx
        have hcr : ¬(x.getLast? = some '\r') := by
          intro hc
          exact (h x hxmem).2.2 (getLast?_mem_list hc)
        unfold stripCr
        rw [if_neg hcr]
      calc (l :: rest).dropLast.map stripCr
          = (l :: rest).dropLast.map id := List.map_congr_left hcong
        _ = (l :: rest).dropLast := List.map_id _
    cases hg : (l :: rest).getLast hne with
    | nil => exact absurd hg (h _ hglmem).1
    | cons c gs =>
      show (match (l :: rest).getLast? with
            | some [] => (l :: rest).dropLast.map stripCr
            | some last => (l :: rest).dropLast.map stripCr ++ [last]
            | none => (l :: rest).dropLast.map stripCr) = l :: rest
      rw [hgl, hg]
      show (l :: rest).dropLast.map stripCr ++ [c :: gs] = l :: rest
      rw [hmap, ← hg]
      exact List.dropLast_append_getLast hne

end RadiologyTemplates

namespace Claims

open RadiologyTemplates

/-- Rust `str::replace` with a one-character pattern and empty replacement
removes exactly the occurrences of that character. -/
theorem replace_char_eq_filter (l : List Char) (t : Char) :
    ConvertToTxt.replace_char l t = l.filter fun c => !(c = t) := by
  induction l with
  | nil => rfl
  | cons c rest ih =>
    by_cases h : c = t <;> simp [ConvertToTxt.replace_char, h, ih]

/-- C9: for every input string, the Markdown-to-plain-text conversion
returns exactly the input with every star and every hash character deleted,
leaving all other characters (including underscores) unchanged and in their
original order. -/
theorem C9_clean_markdown_text_filters (text : List Char) :
    ConvertToTxt.clean_markdown_text text =
      text.filter fun c => !(c = '*' || c = '#') := by
  unfold ConvertToTxt.clean_markdown_text
  rw [replace_char_eq_filter, replace_char_eq_filter, List.filter_filter]
  simp only [Bool.not_or]
  exact List.filter_congr fun c _ => Bool.and_comm _ _

/-- C5: decoding the unterminated line consisting of a double star followed
by the word bold yields exactly one run with that word as text, bold on and
italic off — nothing after the dangling opening marker is discarded. -/
theorem C5_unterminated_bold :
    ConvertToDocx.decode_markdown_line (("**bold").toList) =
      ⟨ConvertToDocx.Alignment.justify,
        [ConvertToDocx.PC.run ⟨("bold").toList, true, false, 20⟩]⟩ := by
  decide

/-- C6: a structured document of exactly one paragraph with no runs encodes
to exactly one blank Markdown line (the empty joined text), and decoding
that text back through `convert_file` produces exactly one empty justified
paragraph. -/
theorem C6_blank_paragraph_identity :
    ConvertToMarkdown.docx_to_markdown_lines [⟨[]⟩] = [[]] ∧
    ConvertToMarkdown.convert_docx_to_markdown [⟨[]⟩] = [] ∧
    ConvertToDocx.convert_file (ConvertToMarkdown.convert_docx_to_markdown [⟨[]⟩]) =
      [⟨ConvertToDocx.Alignment.justify, [ConvertToDocx.PC.text []]⟩] := by
  refine ⟨rfl, rfl, ?_⟩
  decide

/-- C7 counterexample: a run whose bold attribute is present with the
explicit disabling value is *not* bold under the reader's derivation (and
the markdown converter leaves it unwrapped), yet the plain-text converter's
docx-to-Markdown path still wraps it bold — so the claimed derivation does
not govern every conversion path. -/
theorem C7_counterexample :
    ConvertToMarkdown.bold_is_on (some ⟨some false⟩) = false ∧
    ConvertToMarkdown.paragraph_to_markdown
        ⟨[⟨['a'], some ⟨some ⟨some false⟩, none, none⟩⟩]⟩ = ['a'] ∧
    ConvertToTxt.paragraph_to_markdown
        ⟨[⟨['a'], some ⟨some ⟨some false⟩, none, none⟩⟩]⟩ = ("**a**").toList := by
  refine ⟨rfl, ?_, ?_⟩ <;> decide

/-- C7 amended: the claimed derivation (off when absent, on when present
unless explicitly disabled; underline's explicit no-underline style counts
as off) is exactly what `bold_is_on`, `italics_is_on` and `underline_is_on`
compute, and it governs the markdown converter's reading; the plain-text
converter's embedded docx-to-Markdown path instead wraps each attribute on
mere presence, ignoring explicit disabling values. -/
theorem C7_amended_derivation :
    (∀ f : Option ConvertToMarkdown.Bold,
      ConvertToMarkdown.bold_is_on f = true ↔
        f ≠ none ∧ f ≠ some ⟨some false⟩) ∧
    (∀ f : Option ConvertToMarkdown.Italics,
      ConvertToMarkdown.italics_is_on f = true ↔
        f ≠ none ∧ f ≠ some ⟨some false⟩) ∧
    (∀ f : Option ConvertToMarkdown.Underline,
      ConvertToMarkdown.underline_is_on f = true ↔
        f ≠ none ∧ f ≠ some ⟨some ConvertToMarkdown.UnderlineStyle.styleNone⟩) ∧
    (∀ (t : List Char) (b : Option ConvertToMarkdown.Bold)
        (i : Option ConvertToMarkdown.Italics)
        (u : Option ConvertToMarkdown.Underline),
      ConvertToTxt.run_to_markdown ⟨t, some ⟨b, i, u⟩⟩ =
        (let t1 := if b.isSome then ("**").toList ++ t ++ ("**").toList else t
         let t2 := if i.isSome then ("*").toList ++ t1 ++ ("*").toList else t1
         if u.isSome then ("__").toList ++ t2 ++ ("__").toList else t2)) := by
  refine ⟨?_, ?_, ?_, ?_⟩
  · rintro (_ | ⟨_ | b⟩)
    · simp [ConvertToMarkdown.bold_is_on]
    · simp [ConvertToMarkdown.bold_is_on]
    · cases b <;> simp [ConvertToMarkdown.bold_is_on]
  · rintro (_ | ⟨_ | b⟩)
    · simp [ConvertToMarkdown.italics_is_on]
    · simp [ConvertToMarkdown.italics_is_on]
    · cases b <;> simp [ConvertToMarkdown.italics_is_on]
  · rintro (_ | ⟨_ | s⟩)
    · simp [ConvertToMarkdown.underline_is_on]
    · simp [ConvertToMarkdown.underline_is_on]
    · cases s <;> simp [ConvertToMarkdown.underline_is_on]
  · intro t b i u
    rfl

/-- C4: the code is wrong for the claim's line — the noise filter is applied
to the lowercased line, so this all-alphabetic all-caps heading line is
dropped by the cleanup and the full conversion emits nothing, even though
the classifier itself, when reached, emits exactly the claimed level-2
heading. -/
theorem C4_heading_dropped_by_noise_filter :
    ConvertToMarkdown.convert_rtf_to_markdown
        (("TOMOGRAFIA COMPUTADORIZADA DO CRANIO").toList) = [] ∧
    ConvertToMarkdown.rtf_cleanup
        (("TOMOGRAFIA COMPUTADORIZADA DO CRANIO").toList) = [] ∧
    ConvertToMarkdown.classify_line
        (("TOMOGRAFIA COMPUTADORIZADA DO CRANIO").toList) =
      ("## TOMOGRAFIA COMPUTADORIZADA DO CRANIO").toList := by
  have h : ConvertToMarkdown.removeGroupsLoop
      (("TOMOGRAFIA COMPUTADORIZADA DO CRANIO").toList) =
      ("TOMOGRAFIA COMPUTADORIZADA DO CRANIO").toList :=
    ConvertToMarkdown.removeGroupsLoop_of_no_brace _ (by decide)
  have e1 : ConvertToMarkdown.rtf_cleanup
      (("TOMOGRAFIA COMPUTADORIZADA DO CRANIO").toList) = [] := by
    unfold ConvertToMarkdown.rtf_cleanup
    rw [h]
    decide
  refine ⟨?_, e1, by decide⟩
  unfold ConvertToMarkdown.convert_rtf_to_markdown
  rw [e1]
  decide

/-- C3 counterexample: the cleanup pipeline is not idempotent — the first
pass reduces this input to a single line that a second pass shortens
again (the leading word-word heuristic fires a second time). -/
theorem C3_counterexample :
    ConvertToMarkdown.rtf_cleanup
        (joinLines (ConvertToMarkdown.rtf_cleanup (("Ab Cd Ef Gh I9").toList))) ≠
      ConvertToMarkdown.rtf_cleanup (("Ab Cd Ef Gh I9").toList) := by
  have h1 : ConvertToMarkdown.removeGroupsLoop (("Ab Cd Ef Gh I9").toList) =
      ("Ab Cd Ef Gh I9").toList :=
    ConvertToMarkdown.removeGroupsLoop_of_no_brace _ (by decide)
  have h2 : ConvertToMarkdown.removeGroupsLoop (("Ef Gh I9").toList) =
      ("Ef Gh I9").toList :=
    ConvertToMarkdown.removeGroupsLoop_of_no_brace _ (by decide)
  have e1 : ConvertToMarkdown.rtf_cleanup (("Ab Cd Ef Gh I9").toList) =
      [("Ef Gh I9").toList] := by
    unfold ConvertToMarkdown.rtf_cleanup
    rw [h1]
    decide
  have e2 : ConvertToMarkdown.rtf_cleanup (("Ef Gh I9").toList) =
      [("I9").toList] := by
    unfold ConvertToMarkdown.rtf_cleanup
    rw [h2]
    decide
  rw [e1]
  have e3 : joinLines [("Ef Gh I9").toList] = ("Ef Gh I9").toList := rfl
  rw [e3, e2]
  decide

/-- The brace-removal loop stops only at states its single pass no longer
changes (or that lack one of the two brace characters). -/
theorem removeGroupsLoop_fix (s : List Char) :
    ConvertToMarkdown.removeGroupsOnce (ConvertToMarkdown.removeGroupsLoop s) =
        ConvertToMarkdown.removeGroupsLoop s ∨
      ¬(ConvertToMarkdown.lbrace ∈ ConvertToMarkdown.removeGroupsLoop s ∧
        ConvertToMarkdown.rbrace ∈ ConvertToMarkdown.removeGroupsLoop s) := by
  have H : ∀ n, ∀ s : List Char, s.length ≤ n →
      (ConvertToMarkdown.removeGroupsOnce (ConvertToMarkdown.removeGroupsLoop s) =
          ConvertToMarkdown.removeGroupsLoop s ∨
        ¬(ConvertToMarkdown.lbrace ∈ ConvertToMarkdown.removeGroupsLoop s ∧
          ConvertToMarkdown.rbrace ∈ ConvertToMarkdown.removeGroupsLoop s)) := by
    intro n
    induction n with
    | zero =>
      intro s hs
      have hnil : s = [] := List.eq_nil_of_length_eq_zero (Nat.le_zero.mp hs)
      subst hnil
      right
      rw [ConvertToMarkdown.removeGroupsLoop_of_no_brace [] (by simp)]
      simp
    | succ n ih =>
      intro s hs
      by_cases hb : ConvertToMarkdown.lbrace ∈ s ∧ ConvertToMarkdown.rbrace ∈ s
      · by_cases hfix : ConvertToMarkdown.removeGroupsOnce s = s
        · have hloop : ConvertToMarkdown.removeGroupsLoop s = s := by
            rw [ConvertToMarkdown.removeGroupsLoop]
            simp [hb, hfix]
          left
          rw [hloop]
          exact hfix
        · have hloop : ConvertToMarkdown.removeGroupsLoop s =
              ConvertToMarkdown.removeGroupsLoop (ConvertToMarkdown.removeGroupsOnce s) := by
            rw [ConvertToMarkdown.removeGroupsLoop]
            simp [hb, hfix]
          rw [hloop]
          have hlt : (ConvertToMarkdown.removeGroupsOnce s).length < s.length := by
            rcases ConvertToMarkdown.removeGroupsOnce_eq_or_lt s with h | h
            · exact absurd h hfix
            · exact h
          exact ih (ConvertToMarkdown.removeGroupsOnce s) (by omega)
      · right
        rw [ConvertToMarkdown.removeGroupsLoop_of_no_brace s hb]
        exact hb
  exact H s.length s le_rfl

/-- C3 amended: the full cleanup pipeline is not idempotent (a second pass
can shorten or drop lines, see the counterexample); the brace-group-removal
stage, however, is idempotent. -/
theorem C3_amended_brace_stage_idempotent (s : List Char) :
    ConvertToMarkdown.removeGroupsLoop (ConvertToMarkdown.removeGroupsLoop s) =
      ConvertToMarkdown.removeGroupsLoop s := by
  rcases removeGroupsLoop_fix s with h | h
  · by_cases hb : ConvertToMarkdown.lbrace ∈ ConvertToMarkdown.removeGroupsLoop s ∧
        ConvertToMarkdown.rbrace ∈ ConvertToMarkdown.removeGroupsLoop s
    · rw [ConvertToMarkdown.removeGroupsLoop]
      simp [hb, h]
    · exact ConvertToMarkdown.removeGroupsLoop_of_no_brace _ hb
  · exact ConvertToMarkdown.removeGroupsLoop_of_no_brace _ h

end Claims

namespace ConvertToDocx

open RadiologyTemplates

/-- The texts of a run list, concatenated. -/
def runsTexts (runs : List MRun) : List Char :=
  (runs.map MRun.text).flatten

theorem runsTexts_append_run (para : List MRun) (buffer : List Char)
    (b i fi : Bool) (pt : Int) :
    runsTexts (append_run para buffer b i fi pt) = runsTexts para ++ buffer := by
  unfold append_run
  by_cases h : buffer = [] <;> simp [h, runsTexts]

theorem runsText_map_run (a : Alignment) (runs : List MRun) :
    runsText ⟨a, runs.map PC.run⟩ = runsTexts runs := by
  induction runs with
  | nil => rfl
  | cons r rest ih =>
    simp only [runsText, runsTexts, List.map_cons, List.map_map,
      List.flatten_cons] at ih ⊢
    rw [ih]

theorem runsOf_map_run (a : Alignment) (runs : List MRun) :
    runsOf ⟨a, runs.map PC.run⟩ = runs := by
  induction runs with
  | nil => rfl
  | cons r rest ih =>
    simp only [runsOf, List.map_cons, List.filterMap_cons] at ih ⊢
    rw [ih]

/-- The scanner conserves every non-marker character, in order: the
concatenated run texts are the runs already collected, the buffer, and the
input with all `'*'`/`'_'` characters removed. -/
theorem scanChars_text (fi : Bool) (pt : Int) (para : List MRun)
    (buffer : List Char) (b i : Bool) (t : List Char) :
    runsTexts (scanChars fi pt para buffer b i t) =
      runsTexts para ++ buffer ++ t.filter fun c => !(c = '*' || c = '_') := by
  induction para, buffer, b, i, t using scanChars.induct fi pt with
  | case1 para buffer b i =>
    simp [scanChars, runsTexts_append_run]
  | case2 para buffer b i c hc ih =>
    rw [scanChars, if_pos hc]
    rw [ih, runsTexts_append_run]
    simp only [List.filter_cons, List.filter_nil]
    rcases Bool.or_eq_true_iff.mp hc with h | h <;>
      simp [decide_eq_true_eq.mp h]
  | case3 para buffer b i c hc ih =>
    rw [scanChars, if_neg hc]
    rw [ih]
    simp only [List.filter_cons, List.filter_nil]
    have h1 : (c = '*' : Bool) = false := by
      cases h : (c = '*' : Bool)
      · rfl
      · exact absurd (by simp [h]) hc
    have h2 : (c = '_' : Bool) = false := by
      cases h : (c = '_' : Bool)
      · rfl
      · exact absurd (by simp [h]) hc
    simp [h1, h2]
  | case4 para buffer b i c1 c2 rest hc ih =>
    rw [scanChars, if_pos hc]
    rw [ih, runsTexts_append_run]
    have hcc := Bool.and_eq_true_iff.mp hc
    have hc2 : c2 = c1 := (decide_eq_true_eq.mp hcc.2).symm
    simp only [List.filter_cons]
    rcases Bool.or_eq_true_iff.mp hcc.1 with h | h <;>
      simp [decide_eq_true_eq.mp h, hc2, decide_eq_true_eq.mp h ▸ hc2]
  | case5 para buffer b i c1 c2 rest hc hm ih =>
    rw [scanChars, if_neg hc, if_pos hm]
    rw [ih, runsTexts_append_run]
    simp only [List.filter_cons]
    rcases Bool.or_eq_true_iff.mp hm with h | h <;>
      simp [decide_eq_true_eq.mp h]
  | case6 para buffer b i c1 c2 rest hc hm ih =>
    rw [scanChars, if_neg hc, if_neg hm]
    rw [ih]
    have h1 : (c1 = '*' : Bool) = false := by
      cases h : (c1 = '*' : Bool)
      · rfl
      · exact absurd (by simp [h]) hm
    have h2 : (c1 = '_' : Bool) = false := by
      cases h : (c1 = '_' : Bool)
      · rfl
      · exact absurd (by simp [h]) hm
    simp [h1, h2]

/-- A marker-free prefix of the input only accumulates into the buffer. -/
theorem scanChars_accumulate (fi : Bool) (pt : Int) (t : List Char)
    (hm : ∀ c ∈ t, ¬(c = '*' ∨ c = '_')) :
    ∀ (para : List MRun) (buffer : List Char) (b i : Bool) (rest : List Char),
      scanChars fi pt para buffer b i (t ++ rest) =
        scanChars fi pt para (buffer ++ t) b i rest := by
  induction t with
  | nil => intro para buffer b i rest; simp
  | cons c t2 ih =>
    intro para buffer b i rest
    have hc : ¬(c = '*' ∨ c = '_') := hm c (List.mem_cons_self c t2)
    have hc1 : (c = '*' : Bool) = false := by
      cases h : (c = '*' : Bool)
      · rfl
      · exact absurd (Or.inl (decide_eq_true_eq.mp h)) hc
    have hc2 : (c = '_' : Bool) = false := by
      cases h : (c = '_' : Bool)
      · rfl
      · exact absurd (Or.inr (decide_eq_true_eq.mp h)) hc
    have hm2 : ∀ x ∈ t2, ¬(x = '*' ∨ x = '_') :=
      fun x hx => hm x (List.mem_cons_of_mem c hx)
    cases hsh : t2 ++ rest with
    | nil =>
      rcases List.append_eq_nil.mp hsh with ⟨h1, h2⟩
      subst h1
      subst h2
      simp [scanChars, hc1, hc2]
    | cons d ds =>
      have hshape : (c :: t2) ++ rest = c :: d :: ds := by
        rw [List.cons_append, hsh]
      rw [hshape]
      conv_lhs => rw [scanChars]
      rw [if_neg (by simp [hc1, hc2]), if_neg (by simp [hc1, hc2])]
      rw [← hsh, ih hm2 para (buffer ++ [c]) b i rest]
      simp

/-- Every run the scanner emits beyond those already collected carries the
forced-italic disjunct and the requested half-point size. -/
theorem scanChars_runs_prop (fi : Bool) (pt : Int) (P : MRun → Prop)
    (hP : ∀ (text : List Char) (b i : Bool), P ⟨text, b, i || fi, pt * 2⟩) :
    ∀ (para : List MRun) (buffer : List Char) (b i : Bool) (t : List Char),
      (∀ r ∈ para, P r) →
      ∀ r ∈ scanChars fi pt para buffer b i t, P r := by
  have happ : ∀ (para : List MRun) (buffer : List Char) (b i : Bool),
      (∀ r ∈ para, P r) → ∀ r ∈ append_run para buffer b i fi pt, P r := by
    intro para buffer b i hpara r hr
    unfold append_run at hr
    by_cases h : buffer = []
    · rw [if_pos h] at hr
      exact hpara r hr
    · rw [if_neg h] at hr
      rcases List.mem_append.mp hr with h2 | h2
      · exact hpara r h2
      · rw [List.mem_singleton.mp h2]
        exact hP buffer b i
  intro para buffer b i t
  induction para, buffer, b, i, t using scanChars.induct fi pt with
  | case1 para buffer b i =>
    intro hpara
    rw [scanChars]
    exact happ para buffer b i hpara
  | case2 para buffer b i c hc ih =>
    intro hpara
    rw [scanChars, if_pos hc]
    exact ih (happ para buffer b i hpara)
  | case3 para buffer b i c hc ih =>
    intro hpara
    rw [scanChars, if_neg hc]
    exact ih hpara
  | case4 para buffer b i c1 c2 rest hc ih =>
    intro hpara
    rw [scanChars, if_pos hc]
    exact ih (happ para buffer b i hpara)
  | case5 para buffer b i c1 c2 rest hc hm ih =>
    intro hpara
    rw [scanChars, if_neg hc, if_pos hm]
    exact ih (happ para buffer b i hpara)
  | case6 para buffer b i c1 c2 rest hc hm ih =>
    intro hpara
    rw [scanChars, if_neg hc, if_neg hm]
    exact ih hpara

end ConvertToDocx

namespace ConvertToDocx

open RadiologyTemplates

theorem mem_of_head? {α : Type} {l : List α} {x : α} (h : l.head? = some x) :
    x ∈ l := by
  cases l with
  | nil => cases h
  | cons a t =>
    cases h
    exact List.mem_cons_self _ _

theorem normalize_heading_of_no_hash (line : List Char)
    (h : ¬ (trimStart line).head? = some '#') :
    normalize_heading line = (line, false) := by
  simp only [normalize_heading]
  rw [if_neg h]

theorem add_markdown_paragraph_of_no_hash (line : List Char)
    (hne : ¬ line = []) (h : ¬ (trimStart line).head? = some '#')
    (a : Alignment) (fi : Bool) (pt : Int) :
    add_markdown_paragraph line a fi pt =
      ⟨a, (scanChars fi pt [] [] false false line).map PC.run⟩ := by
  simp only [add_markdown_paragraph, normalize_heading_of_no_hash line h]
  rw [if_neg hne]

/-- Scanning marker-free text yields one run with the current flags. -/
theorem scan_plain (fi : Bool) (pt : Int) (t : List Char) (ht : ¬ t = [])
    (hm : ∀ c ∈ t, ¬(c = '*' ∨ c = '_')) (b i : Bool) :
    scanChars fi pt [] [] b i t = [⟨t, b, i || fi, pt * 2⟩] := by
  conv_lhs => rw [← List.append_nil t]
  rw [scanChars_accumulate fi pt t hm]
  simp [scanChars, append_run, ht]

/-- Scanning a double-marker-wrapped marker-free text yields one bold run. -/
theorem scan_bold (fi : Bool) (pt : Int) (t : List Char) (ht : ¬ t = [])
    (hm : ∀ c ∈ t, ¬(c = '*' ∨ c = '_')) :
    scanChars fi pt [] [] false false ('*' :: '*' :: (t ++ ['*', '*'])) =
      [⟨t, true, false || fi, pt * 2⟩] := by
  conv_lhs => rw [scanChars]
  rw [if_pos (by decide)]
  have he : append_run [] [] false false fi pt = [] := rfl
  rw [he, scanChars_accumulate fi pt t hm]
  simp [scanChars, append_run, ht]

/-- Scanning a single-marker-wrapped marker-free text yields one italic
run. -/
theorem scan_italic (fi : Bool) (pt : Int) (t : List Char) (ht : ¬ t = [])
    (hm : ∀ c ∈ t, ¬(c = '*' ∨ c = '_')) :
    scanChars fi pt [] [] false false ('*' :: (t ++ ['*'])) =
      [⟨t, false, true || fi, pt * 2⟩] := by
  cases t with
  | nil => exact absurd rfl ht
  | cons c t2 =>
    have hc : ¬(c = '*' ∨ c = '_') := hm c (List.mem_cons_self c t2)
    have hc1 : ¬ '*' = c := fun h => hc (Or.inl h.symm)
    rw [List.cons_append]
    conv_lhs => rw [scanChars]
    rw [if_neg (by simp [hc1]), if_pos (by decide)]
    have he : append_run [] [] false false fi pt = [] := rfl
    rw [he, ← List.cons_append, scanChars_accumulate fi pt (c :: t2) hm]
    simp [scanChars, append_run, ht]

/-- Scanning a triple-marker-wrapped marker-free text yields one bold italic
run. -/
theorem scan_bold_italic (fi : Bool) (pt : Int) (t : List Char)
    (ht : ¬ t = []) (hm : ∀ c ∈ t, ¬(c = '*' ∨ c = '_')) :
    scanChars fi pt [] [] false false
        ('*' :: '*' :: '*' :: (t ++ ['*', '*', '*'])) =
      [⟨t, true, true || fi, pt * 2⟩] := by
  conv_lhs => rw [scanChars]
  rw [if_pos (by decide)]
  have he : append_run [] [] false false fi pt = [] := rfl
  rw [he]
  cases t with
  | nil => exact absurd rfl ht
  | cons c t2 =>
    have hc : ¬(c = '*' ∨ c = '_') := hm c (List.mem_cons_self c t2)
    have hc1 : ¬ '*' = c := fun h => hc (Or.inl h.symm)
    rw [List.cons_append]
    conv_lhs => rw [scanChars]
    rw [if_neg (by simp [hc1]), if_pos (by decide)]
    have he2 : append_run [] [] (!false) false fi pt = [] := rfl
    rw [he2, ← List.cons_append, scanChars_accumulate fi pt (c :: t2) hm]
    simp [scanChars, append_run, ht]

end ConvertToDocx

namespace SpecModel

open RadiologyTemplates

/-- The heading normalization as the claim words it (spec side, for
comparison with the source's `normalize_heading`): the leading run of hash
characters and the whitespace adjacent to it are stripped when present, and
the line is returned unchanged otherwise.  Unlike the source, this does not
touch whitespace at the end of a heading line. -/
def specHeadingNormalize (line : List Char) : List Char :=
  let stripped := trimStart line
  if stripped.head? = some '#' then
    (stripped.dropWhile fun c => c = '#').dropWhile isWs
  else line

end SpecModel

namespace Claims

open RadiologyTemplates

/-- C10 counterexample: on a heading line with trailing whitespace the
decoder's runs concatenate to the fully trimmed text, not to the claim's
normalization (which strips only the hash run and its adjacent whitespace
and would keep the trailing space). -/
theorem C10_counterexample :
    ConvertToDocx.runsText (ConvertToDocx.decode_markdown_line (("# a ").toList)) =
      ['a'] ∧
    ((SpecModel.specHeadingNormalize (("# a ").toList)).filter
        fun c => !(c = '*' || c = '_')) = ['a', ' '] ∧
    ¬ (['a'] : List Char) = ['a', ' '] := by
  refine ⟨by decide, by decide, by decide⟩

/-- C10 amended: for every input line, the concatenated texts of the runs
appended by the decoder equal the source-normalized text (leading
whitespace and hash run stripped and the remainder trimmed at both ends
when the line is a heading, the line unchanged otherwise) with every star
and underscore removed — the scanner never drops, duplicates or reorders a
non-marker character, for matched and unmatched markers alike. -/
theorem C10_amended_scanner_conserves (line : List Char)
    (a : ConvertToDocx.Alignment) (fi : Bool) (pt : Int) :
    ConvertToDocx.runsText (ConvertToDocx.add_markdown_paragraph line a fi pt) =
      ((ConvertToDocx.normalize_heading line).1).filter
        fun c => !(c = '*' || c = '_') := by
  simp only [ConvertToDocx.add_markdown_paragraph]
  by_cases h : (ConvertToDocx.normalize_heading line).1 = []
  · rw [if_pos h, h]
    rfl
  · rw [if_neg h, ConvertToDocx.runsText_map_run, ConvertToDocx.scanChars_text]
    simp [ConvertToDocx.runsTexts]

end Claims

namespace Claims

open RadiologyTemplates

/-- A single-run paragraph with visible text encodes to the wrapped run
text. -/
theorem encode_single_run (r : ConvertToMarkdown.DocxRun)
    (ht : ¬ r.text = []) (hw : ∃ c ∈ r.text, ¬ isWs c = true) :
    ConvertToMarkdown.paragraph_to_markdown ⟨[r]⟩ =
      ConvertToMarkdown.run_to_markdown r := by
  have hplain : ConvertToMarkdown.paraText ⟨[r]⟩ = r.text := by
    simp [ConvertToMarkdown.paraText]
  have htrim : ¬ trim r.text = [] := by
    obtain ⟨c, hc, hcw⟩ := hw
    exact trim_ne_nil_of_mem _ c hc hcw
  simp only [ConvertToMarkdown.paragraph_to_markdown, hplain]
  rw [if_neg htrim]
  simp [List.filterMap_cons, ht]

/-- Every character of a wrapped run text is a text character or a
marker. -/
theorem mem_run_to_markdown (r : ConvertToMarkdown.DocxRun) :
    ∀ c ∈ ConvertToMarkdown.run_to_markdown r,
      c ∈ r.text ∨ c = '*' ∨ c = '_' := by
  intro c hc
  unfold ConvertToMarkdown.run_to_markdown at hc
  cases hp : r.property with
  | none =>
    rw [hp] at hc
    exact Or.inl hc
  | some prop =>
    rw [hp] at hc
    have e1 : ("__").toList = ['_', '_'] := rfl
    have e2 : ("*").toList = ['*'] := rfl
    have e3 : ("**").toList = ['*', '*'] := rfl
    cases hb : ConvertToMarkdown.bold_is_on prop.bold <;>
      cases hi : ConvertToMarkdown.italics_is_on prop.italics <;>
      cases hu : ConvertToMarkdown.underline_is_on prop.underline <;>
      simp only [hb, hi, hu] at hc <;>
      simp [e1, e2, e3, List.mem_append] at hc <;>
      tauto

/-- A wrapped run text is non-empty when the run text is. -/
theorem run_to_markdown_ne_nil (r : ConvertToMarkdown.DocxRun)
    (ht : ¬ r.text = []) : ¬ ConvertToMarkdown.run_to_markdown r = [] := by
  unfold ConvertToMarkdown.run_to_markdown
  cases hp : r.property with
  | none => exact ht
  | some prop =>
    cases hb : ConvertToMarkdown.bold_is_on prop.bold <;>
      cases hi : ConvertToMarkdown.italics_is_on prop.italics <;>
      cases hu : ConvertToMarkdown.underline_is_on prop.underline <;>
      simp [hb, hi, hu, ht]

/-- Decoding the encoding of one good single-run paragraph recovers the
run's text and derived bold/italic flags. -/
theorem decode_encode_single (r : ConvertToMarkdown.DocxRun)
    (ht : ¬ r.text = []) (hw : ∃ c ∈ r.text, ¬ isWs c = true)
    (hm : ∀ c ∈ r.text, ¬(c = '*' ∨ c = '_' ∨ c = '#'))
    (hu : ConvertToMarkdown.runUnderline r = false) :
    (ConvertToDocx.runsOf (ConvertToDocx.decode_markdown_line
        (ConvertToMarkdown.paragraph_to_markdown ⟨[r]⟩))).map
        (fun q => (q.text, q.bold, q.italic)) =
      [(r.text, ConvertToMarkdown.runBold r, ConvertToMarkdown.runItalic r)] := by
  rw [encode_single_run r ht hw]
  have hm2 : ∀ c ∈ r.text, ¬(c = '*' ∨ c = '_') := by
    intro c hc h
    rcases h with h | h
    · exact hm c hc (Or.inl h)
    · exact hm c hc (Or.inr (Or.inl h))
  have hhash : ∀ c ∈ r.text, ¬ c = '#' :=
    fun c hc h => hm c hc (Or.inr (Or.inr h))
  have hnh : ¬ (trimStart r.text).head? = some '#' := by
    intro h
    have hmem : '#' ∈ r.text :=
      (List.dropWhile_sublist (l := r.text) (p := isWs)).mem
        (ConvertToDocx.mem_of_head? h)
    exact hhash '#' hmem rfl
  cases hp : r.property with
  | none =>
    have henc : ConvertToMarkdown.run_to_markdown r = r.text := by
      simp [ConvertToMarkdown.run_to_markdown, hp]
    rw [henc, ConvertToDocx.decode_markdown_line,
      ConvertToDocx.add_markdown_paragraph_of_no_hash _ ht hnh,
      ConvertToDocx.scan_plain false 10 r.text ht hm2,
      ConvertToDocx.runsOf_map_run]
    simp [ConvertToMarkdown.runBold, ConvertToMarkdown.runItalic, hp]
  | some prop =>
    have hu2 : ConvertToMarkdown.underline_is_on prop.underline = false := by
      simpa [ConvertToMarkdown.runUnderline, hp] using hu
    have hbold : ConvertToMarkdown.runBold r =
        ConvertToMarkdown.bold_is_on prop.bold := by
      simp [ConvertToMarkdown.runBold, hp]
    have hital : ConvertToMarkdown.runItalic r =
        ConvertToMarkdown.italics_is_on prop.italics := by
      simp [ConvertToMarkdown.runItalic, hp]
    by_cases hb : ConvertToMarkdown.bold_is_on prop.bold <;>
      by_cases hi : ConvertToMarkdown.italics_is_on prop.italics
    · -- bold and italic
      have henc : ConvertToMarkdown.run_to_markdown r =
          '*' :: '*' :: '*' :: (r.text ++ ['*', '*', '*']) := by
        simp [ConvertToMarkdown.run_to_markdown, hp, hb, hi, hu2]
      have hline : ¬ ('*' : Char) :: '*' :: '*' :: (r.text ++ ['*', '*', '*']) = [] := by
        simp
      have hnh2 : ¬ (trimStart
          (('*' : Char) :: '*' :: '*' :: (r.text ++ ['*', '*', '*']))).head? =
            some '#' := by
        simp [trimStart, List.dropWhile, isWs]
      rw [henc, ConvertToDocx.decode_markdown_line,
        ConvertToDocx.add_markdown_paragraph_of_no_hash _ hline hnh2,
        ConvertToDocx.scan_bold_italic false 10 r.text ht hm2,
        ConvertToDocx.runsOf_map_run]
      simp [hbold, hital, hb, hi]
    · -- bold only
      have henc : ConvertToMarkdown.run_to_markdown r =
          '*' :: '*' :: (r.text ++ ['*', '*']) := by
        simp [ConvertToMarkdown.run_to_markdown, hp, hb, hi, hu2]
      have hline : ¬ ('*' : Char) :: '*' :: (r.text ++ ['*', '*']) = [] := by
        simp
      have hnh2 : ¬ (trimStart
          (('*' : Char) :: '*' :: (r.text ++ ['*', '*']))).head? = some '#' := by
        simp [trimStart, List.dropWhile, isWs]
      rw [henc, ConvertToDocx.decode_markdown_line,
        ConvertToDocx.add_markdown_paragraph_of_no_hash _ hline hnh2,
        ConvertToDocx.scan_bold false 10 r.text ht hm2,
        ConvertToDocx.runsOf_map_run]
      simp [hbold, hital, hb, hi]
    · -- italic only
      have henc : ConvertToMarkdown.run_to_markdown r =
          '*' :: (r.text ++ ['*']) := by
        simp [ConvertToMarkdown.run_to_markdown, hp, hb, hi, hu2]
      have hline : ¬ ('*' : Char) :: (r.text ++ ['*']) = [] := by
        simp
      have hnh2 : ¬ (trimStart (('*' : Char) :: (r.text ++ ['*']))).head? =
          some '#' := by
        simp [trimStart, List.dropWhile, isWs]
      rw [henc, ConvertToDocx.decode_markdown_line,
        ConvertToDocx.add_markdown_paragraph_of_no_hash _ hline hnh2,
        ConvertToDocx.scan_italic false 10 r.text ht hm2,
        ConvertToDocx.runsOf_map_run]
      simp [hbold, hital, hb, hi]
    · -- plain
      have henc : ConvertToMarkdown.run_to_markdown r = r.text := by
        simp [ConvertToMarkdown.run_to_markdown, hp, hb, hi, hu2]
      rw [henc, ConvertToDocx.decode_markdown_line,
        ConvertToDocx.add_markdown_paragraph_of_no_hash _ ht hnh,
        ConvertToDocx.scan_plain false 10 r.text ht hm2,
        ConvertToDocx.runsOf_map_run]
      simp [hbold, hital, hb, hi]

end Claims

namespace Claims

open RadiologyTemplates

/-- C1 counterexample: a document with one paragraph of two adjacent italic
runs.  Encoding yields a line whose middle two markers are read back as one
double marker, so the decoded second run comes back with bold on — the
claimed round trip fails even though no run text contains a star,
underscore or hash. -/
theorem C1_counterexample :
    (ConvertToDocx.decode_markdown (ConvertToMarkdown.convert_docx_to_markdown
        [⟨[⟨['a'], some ⟨none, some ⟨none⟩, none⟩⟩,
           ⟨['b'], some ⟨none, some ⟨none⟩, none⟩⟩]⟩])).map
        (fun p => (ConvertToDocx.runsOf p).map fun q => (q.text, q.bold, q.italic)) ≠
      ([⟨[⟨['a'], some ⟨none, some ⟨none⟩, none⟩⟩,
          ⟨['b'], some ⟨none, some ⟨none⟩, none⟩⟩]⟩] :
          List ConvertToMarkdown.DocxParagraph).map
        (fun p => p.runs.map fun r =>
          (r.text, ConvertToMarkdown.runBold r, ConvertToMarkdown.runItalic r)) := by
  decide

/-- C1 amended: for every structured document in which each paragraph holds
exactly one run whose text is non-empty, contains a non-whitespace
character, and contains none of star, underscore, hash, newline or carriage
return, and whose underline is off, encoding to Markdown and decoding the
result line by line with the toggle scanner yields runs with identical
text and identical derived bold/italic flags. -/
theorem C1_amended_roundtrip (doc : List ConvertToMarkdown.DocxParagraph)
    (H : ∀ p ∈ doc, ∃ r : ConvertToMarkdown.DocxRun, p.runs = [r] ∧
      ¬ r.text = [] ∧ (∃ c ∈ r.text, ¬ isWs c = true) ∧
      (∀ c ∈ r.text,
        ¬(c = '*' ∨ c = '_' ∨ c = '#' ∨ c = '\n' ∨ c = '\r')) ∧
      ConvertToMarkdown.runUnderline r = false) :
    (ConvertToDocx.decode_markdown
        (ConvertToMarkdown.convert_docx_to_markdown doc)).map
        (fun p => (ConvertToDocx.runsOf p).map fun q => (q.text, q.bold, q.italic)) =
      doc.map fun p => p.runs.map fun r =>
        (r.text, ConvertToMarkdown.runBold r, ConvertToMarkdown.runItalic r) := by
  have hlines : ∀ l ∈ ConvertToMarkdown.docx_to_markdown_lines doc,
      l ≠ [] ∧ '\n' ∉ l ∧ '\r' ∉ l := by
    intro l hl
    obtain ⟨p, hp, hpl⟩ := List.mem_map.mp hl
    obtain ⟨r, hruns, ht, hw, hm, hu⟩ := H p hp
    obtain ⟨runs⟩ := p
    have hpr : runs = [r] := hruns
    subst hpr
    rw [← hpl, encode_single_run r ht hw]
    refine ⟨run_to_markdown_ne_nil r ht, ?_, ?_⟩
    · intro hmem
      rcases mem_run_to_markdown r '\n' hmem with h | h | h
      · exact hm '\n' h (by simp)
      · cases h
      · cases h
    · intro hmem
      rcases mem_run_to_markdown r '\r' hmem with h | h | h
      · exact hm '\r' h (by simp)
      · cases h
      · cases h
  have hdec : ConvertToDocx.decode_markdown
      (ConvertToMarkdown.convert_docx_to_markdown doc) =
      (ConvertToMarkdown.docx_to_markdown_lines doc).map
        ConvertToDocx.decode_markdown_line := by
    unfold ConvertToDocx.decode_markdown
      ConvertToMarkdown.convert_docx_to_markdown
    rw [rustLines_joinLines _ hlines]
  rw [hdec]
  unfold ConvertToMarkdown.docx_to_markdown_lines
  rw [List.map_map, List.map_map]
  apply List.map_congr_left
  intro p hp
  obtain ⟨r, hruns, ht, hw, hm, hu⟩ := H p hp
  obtain ⟨runs⟩ := p
  have hpr : runs = [r] := hruns
  subst hpr
  have hm3 : ∀ c ∈ r.text, ¬(c = '*' ∨ c = '_' ∨ c = '#') := by
    intro c hc h
    rcases h with h | h | h
    · exact hm c hc (Or.inl h)
    · exact hm c hc (Or.inr (Or.inl h))
    · exact hm c hc (Or.inr (Or.inr (Or.inl h)))
  have := decode_encode_single r ht hw hm3 hu
  simpa [Function.comp] using this

/-- C1 witness: the amended round trip at a one-paragraph document whose
single run is bold (attribute present without a value). -/
theorem C1_roundtrip_witness :
    (ConvertToDocx.decode_markdown (ConvertToMarkdown.convert_docx_to_markdown
        [⟨[⟨['o', 'k'], some ⟨some ⟨none⟩, none, none⟩⟩]⟩])).map
        (fun p => (ConvertToDocx.runsOf p).map fun q => (q.text, q.bold, q.italic)) =
      ([⟨[⟨['o', 'k'], some ⟨some ⟨none⟩, none, none⟩⟩]⟩] :
          List ConvertToMarkdown.DocxParagraph).map
        (fun p => p.runs.map fun r =>
          (r.text, ConvertToMarkdown.runBold r, ConvertToMarkdown.runItalic r)) := by
  apply C1_amended_roundtrip
  intro p hp
  rw [List.mem_singleton.mp hp]
  refine ⟨⟨['o', 'k'], some ⟨some ⟨none⟩, none, none⟩⟩, rfl, by decide,
    by decide, by decide, by decide⟩

end Claims

namespace ConvertTxtToMarkdown

open RadiologyTemplates

theorem nonempty_indices_nil_all_blank (lines : List (List Char)) :
    ∀ (off : Nat), nonempty_indices off lines = [] →
      ∀ k, k < lines.length → trim (lines.getD k []) = [] := by
  induction lines with
  | nil =>
    intro off _ k hk
    simp at hk
  | cons l rest ih =>
    intro off h k hk
    by_cases hb : trim l = []
    · rw [nonempty_indices, if_pos hb] at h
      cases k with
      | zero => simpa using hb
      | succ k2 =>
        rw [List.getD_cons_succ]
        exact ih (off + 1) h k2 (by simpa using hk)
    · rw [nonempty_indices, if_neg hb] at h
      cases h

theorem nonempty_indices_head (lines : List (List Char)) :
    ∀ (off a : Nat), (nonempty_indices off lines).head? = some a →
      off ≤ a ∧ a - off < lines.length ∧
        ¬ trim (lines.getD (a - off) []) = [] ∧
        ∀ k, k < a - off → trim (lines.getD k []) = [] := by
  induction lines with
  | nil =>
    intro off a h
    cases h
  | cons l rest ih =>
    intro off a h
    by_cases hb : trim l = []
    · rw [nonempty_indices, if_pos hb] at h
      obtain ⟨h1, h2, h3, h4⟩ := ih (off + 1) a h
      have hge : 1 ≤ a - off := by omega
      have heq : a - off = (a - (off + 1)) + 1 := by omega
      refine ⟨by omega, by simpa using by omega, ?_, ?_⟩
      · rw [heq, List.getD_cons_succ]
        exact h3
      · intro k hk
        cases k with
        | zero => simpa using hb
        | succ k2 =>
          rw [List.getD_cons_succ]
          exact h4 k2 (by omega)
    · rw [nonempty_indices, if_neg hb] at h
      have ha : a = off := by
        simpa using h.symm
      subst ha
      refine ⟨le_rfl, by simp, ?_, ?_⟩
      · simpa using hb
      · intro k hk
        exact absurd hk (by omega)


theorem nonempty_indices_getLast (lines : List (List Char)) :
    ∀ (off b : Nat), (nonempty_indices off lines).getLast? = some b →
      off ≤ b ∧ b - off < lines.length ∧
        ¬ trim (lines.getD (b - off) []) = [] ∧
        ∀ k, b - off < k → k < lines.length → trim (lines.getD k []) = [] := by
  induction lines with
  | nil =>
    intro off b h
    cases h
  | cons l rest ih =>
    intro off b h
    by_cases hb : trim l = []
    · rw [nonempty_indices, if_pos hb] at h
      obtain ⟨h1, h2, h3, h4⟩ := ih (off + 1) b h
      have heq : b - off = (b - (off + 1)) + 1 := by omega
      refine ⟨by omega, by simpa using by omega, ?_, ?_⟩
      · rw [heq, List.getD_cons_succ]
        exact h3
      · intro k hk hk2
        cases k with
        | zero => omega
        | succ k2 =>
          rw [List.getD_cons_succ]
          exact h4 k2 (by omega) (by simpa using hk2)
    · rw [nonempty_indices, if_neg hb] at h
      cases ht : nonempty_indices (off + 1) rest with
      | nil =>
        rw [ht] at h
        have hbo : b = off := by
          simpa using h.symm
        rw [hbo]
        refine ⟨le_rfl, by simp, by simpa using hb, ?_⟩
        intro k hk hk2
        cases k with
        | zero => exact absurd hk (by omega)
        | succ k2 =>
          rw [List.getD_cons_succ]
          exact nonempty_indices_nil_all_blank rest (off + 1) ht k2
            (by simpa using hk2)
      | cons x xs =>
        rw [ht, List.getLast?_cons_cons] at h
        rw [← ht] at h
        obtain ⟨h1, h2, h3, h4⟩ := ih (off + 1) b h
        have heq : b - off = (b - (off + 1)) + 1 := by omega
        refine ⟨by omega, by simpa using by omega, ?_, ?_⟩
        · rw [heq, List.getD_cons_succ]
          exact h3
        · intro k hk hk2
          cases k with
          | zero => omega
          | succ k2 =>
            rw [List.getD_cons_succ]
            exact h4 k2 (by omega) (by simpa using hk2)

theorem find_first_last_spec (lines : List (List Char)) (i j : Nat)
    (h : find_first_last_nonempty lines = some (i, j)) :
    i ≤ j ∧ i < lines.length ∧ j < lines.length ∧
      ¬ trim (lines.getD i []) = [] ∧ ¬ trim (lines.getD j []) = [] ∧
      (∀ k, k < i → trim (lines.getD k []) = []) ∧
      (∀ k, j < k → k < lines.length → trim (lines.getD k []) = []) := by
  simp only [find_first_last_nonempty] at h
  cases hh : (nonempty_indices 0 lines).head? with
  | none =>
    rw [hh] at h
    cases hl : (nonempty_indices 0 lines).getLast? with
    | none =>
      rw [hl] at h
      exact absurd h (by simp)
    | some b =>
      rw [hl] at h
      exact absurd h (by simp)
  | some a =>
    cases hl : (nonempty_indices 0 lines).getLast? with
    | none =>
      rw [hh, hl] at h
      exact absurd h (by simp)
    | some b =>
      rw [hh, hl] at h
      have h3 : some (a, b) = some (i, j) := h
      have hab : a = i ∧ b = j := by
        injection h3 with h4
        injection h4 with h5 h6
        exact ⟨h5, h6⟩
      obtain ⟨rfl, rfl⟩ := hab
      obtain ⟨_, hi1, hi2, hi3⟩ := nonempty_indices_head lines 0 a hh
      obtain ⟨_, hj1, hj2, hj3⟩ := nonempty_indices_getLast lines 0 b hl
      simp only [Nat.sub_zero] at hi1 hi2 hi3 hj1 hj2 hj3
      have hij : a ≤ b := by
        by_contra hc
        exact hj2 (hi3 b (by omega))
      exact ⟨hij, hi1, hj1, hi2, hj2, hi3, hj3⟩

theorem find_first_last_none (lines : List (List Char))
    (h : find_first_last_nonempty lines = none) :
    ∀ k, k < lines.length → trim (lines.getD k []) = [] := by
  simp only [find_first_last_nonempty] at h
  cases hh : (nonempty_indices 0 lines).head? with
  | none =>
    have hnil : nonempty_indices 0 lines = [] := List.head?_eq_none_iff.mp hh
    exact nonempty_indices_nil_all_blank lines 0 hnil
  | some a =>
    cases hl : (nonempty_indices 0 lines).getLast? with
    | none =>
      have hnil : nonempty_indices 0 lines = [] := by
        cases hc : nonempty_indices 0 lines with
        | nil => rfl
        | cons x xs =>
          rw [hc] at hl
          rw [List.getLast?_eq_getLast _ (by simp)] at hl
          cases hl
      rw [hnil] at hh
      cases hh
    | some b =>
      rw [hh, hl] at h
      exact absurd h (by simp)

theorem format_lines_loop_length (fl : Option (Nat × Nat)) :
    ∀ (lines : List (List Char)) (off : Nat),
      (format_lines_loop fl off lines).length = lines.length := by
  intro lines
  induction lines with
  | nil => intro off; rfl
  | cons l rest ih =>
    intro off
    simp [format_lines_loop, ih]

theorem format_lines_loop_getD (fl : Option (Nat × Nat)) :
    ∀ (lines : List (List Char)) (off k : Nat), k < lines.length →
      (format_lines_loop fl off lines).getD k [] =
        format_line fl (off + k) (lines.getD k []) := by
  intro lines
  induction lines with
  | nil =>
    intro off k hk
    simp at hk
  | cons l rest ih =>
    intro off k hk
    cases k with
    | zero => simp [format_lines_loop]
    | succ k2 =>
      rw [format_lines_loop]
      rw [List.getD_cons_succ, List.getD_cons_succ,
        ih (off + 1) k2 (by simpa using hk)]
      congr 1
      omega

end ConvertTxtToMarkdown

namespace Claims

open RadiologyTemplates

/-- C8 counterexample: an interior line with surrounding whitespace does not
pass through unchanged — the promoter emits it trimmed. -/
theorem C8_counterexample :
    ConvertTxtToMarkdown.format_lines_as_markdown
        ((["a", " b ", "c"]).map String.toList) =
      (["**a**", "b", "*c*"]).map String.toList ∧
    ¬ (" b ").toList = ("b").toList := by
  refine ⟨by decide, by decide⟩

/-- C8 amended: blank lines are emitted as empty lines; the line at the
last-non-blank index is italic-wrapped; otherwise the line at the
first-non-blank index or a recognised section line is bold-wrapped; all
remaining lines are emitted trimmed (not verbatim).  The first/last indices
returned by `find_first_last_nonempty` are exactly the first and last
non-blank positions, and the concrete five-line example of the claim holds
as stated. -/
theorem C8_amended_promoter (lines : List (List Char)) :
    (ConvertTxtToMarkdown.format_lines_as_markdown lines).length = lines.length ∧
    (∀ i j, ConvertTxtToMarkdown.find_first_last_nonempty lines = some (i, j) →
      i ≤ j ∧ i < lines.length ∧ j < lines.length ∧
      ¬ trim (lines.getD i []) = [] ∧ ¬ trim (lines.getD j []) = [] ∧
      (∀ k, k < i → trim (lines.getD k []) = []) ∧
      (∀ k, j < k → k < lines.length → trim (lines.getD k []) = [])) ∧
    (ConvertTxtToMarkdown.find_first_last_nonempty lines = none →
      ∀ k, k < lines.length → trim (lines.getD k []) = []) ∧
    (∀ k, k < lines.length →
      (ConvertTxtToMarkdown.format_lines_as_markdown lines).getD k [] =
        (if trim (lines.getD k []) = [] then []
         else if (ConvertTxtToMarkdown.find_first_last_nonempty lines).map
             Prod.snd = some k then
           ("*").toList ++ trim (lines.getD k []) ++ ("*").toList
         else if (ConvertTxtToMarkdown.find_first_last_nonempty lines).map
               Prod.fst = some k ∨
             ConvertTxtToMarkdown.should_bold_section (trim (lines.getD k [])) =
               true then
           ("**").toList ++ trim (lines.getD k []) ++ ("**").toList
         else trim (lines.getD k []))) ∧
    ConvertTxtToMarkdown.format_lines_as_markdown
        ((["", "Relatório", "Indicação clínica: dor", "normal", "Assinado"]).map
          String.toList) =
      (["", "**Relatório**", "**Indicação clínica: dor**", "normal",
        "*Assinado*"]).map String.toList := by
  refine ⟨?_, ?_, ?_, ?_, by decide⟩
  · exact ConvertTxtToMarkdown.format_lines_loop_length _ lines 0
  · intro i j h
    exact ConvertTxtToMarkdown.find_first_last_spec lines i j h
  · intro h
    exact ConvertTxtToMarkdown.find_first_last_none lines h
  · intro k hk
    rw [ConvertTxtToMarkdown.format_lines_as_markdown,
      ConvertTxtToMarkdown.format_lines_loop_getD _ lines 0 k hk]
    simp only [Nat.zero_add]
    unfold ConvertTxtToMarkdown.format_line
    by_cases h1 : trim (lines.getD k []) = []
    · rw [if_pos h1, if_pos h1]
    · rw [if_neg h1, if_neg h1]
      by_cases h2 : (ConvertTxtToMarkdown.find_first_last_nonempty lines).map
          Prod.snd = some k
      · rw [if_pos h2, if_pos h2]
      · rw [if_neg h2, if_neg h2]
        by_cases h3 : (ConvertTxtToMarkdown.find_first_last_nonempty lines).map
              Prod.fst = some k ∨
            ConvertTxtToMarkdown.should_bold_section (trim (lines.getD k [])) =
              true
        · rw [if_pos h3]
          have hcond : (decide
              ((ConvertTxtToMarkdown.find_first_last_nonempty lines).map
                Prod.fst = some k) ||
              ConvertTxtToMarkdown.should_bold_section
                (trim (lines.getD k []))) = true := by
            rcases h3 with h3 | h3
            · rw [decide_eq_true h3, Bool.true_or]
            · rw [h3, Bool.or_true]
          rw [if_pos hcond]
        · rw [if_neg h3]
          rw [if_neg ?_]
          intro hc
          rcases Bool.or_eq_true_iff.mp hc with hc | hc
          · exact h3 (Or.inl (of_decide_eq_true hc))
          · exact h3 (Or.inr hc)

/-- C8 witness: the amended promoter statement applied to the claim's
concrete five-line input. -/
theorem C8_promoter_witness :
    ConvertTxtToMarkdown.format_lines_as_markdown
        ((["", "Relatório", "Indicação clínica: dor", "normal", "Assinado"]).map
          String.toList) =
      (["", "**Relatório**", "**Indicação clínica: dor**", "normal",
        "*Assinado*"]).map String.toList :=
  (C8_amended_promoter
    ((["", "Relatório", "Indicação clínica: dor", "normal", "Assinado"]).map
      String.toList)).2.2.2.2

end Claims

namespace ConvertToDocx

open RadiologyTemplates

theorem first_written_none (lines : List (List Char)) :
    first_written lines = none →
      ∀ k, k < lines.length → trim (lines.getD k []) = [] := by
  induction lines with
  | nil =>
    intro _ k hk
    simp at hk
  | cons l rest ih =>
    intro h k hk
    by_cases hb : trim l = []
    · rw [first_written, if_pos hb] at h
      have hr : first_written rest = none := by
        cases hc : first_written rest with
        | none => rfl
        | some x => rw [hc] at h; cases h
      cases k with
      | zero => simpa using hb
      | succ k2 =>
        rw [List.getD_cons_succ]
        exact ih hr k2 (by simpa using hk)
    · rw [first_written, if_neg hb] at h
      cases h

theorem first_written_spec (lines : List (List Char)) :
    ∀ i, first_written lines = some i →
      i < lines.length ∧ ¬ trim (lines.getD i []) = [] ∧
        ∀ k, k < i → trim (lines.getD k []) = [] := by
  induction lines with
  | nil =>
    intro i h
    cases h
  | cons l rest ih =>
    intro i h
    by_cases hb : trim l = []
    · rw [first_written, if_pos hb] at h
      obtain ⟨i2, hi2, hadd⟩ := Option.map_eq_some'.mp h
      obtain ⟨h1, h2, h3⟩ := ih i2 hi2
      subst hadd
      refine ⟨by simpa using by omega, ?_, ?_⟩
      · rw [List.getD_cons_succ]
        exact h2
      · intro k hk
        cases k with
        | zero => simpa using hb
        | succ k2 =>
          rw [List.getD_cons_succ]
          exact h3 k2 (by omega)
    · rw [first_written, if_neg hb] at h
      have hi : i = 0 := by simpa using h.symm
      subst hi
      refine ⟨by simp, by simpa using hb, ?_⟩
      intro k hk
      exact absurd hk (by omega)

theorem last_written_none (lines : List (List Char)) :
    last_written lines = none →
      ∀ k, k < lines.length → trim (lines.getD k []) = [] := by
  induction lines with
  | nil =>
    intro _ k hk
    simp at hk
  | cons l rest ih =>
    intro h k hk
    rw [last_written] at h
    cases hr : last_written rest with
    | some j =>
      rw [hr] at h
      cases h
    | none =>
      rw [hr] at h
      by_cases hb : trim l = []
      · cases k with
        | zero => simpa using hb
        | succ k2 =>
          rw [List.getD_cons_succ]
          exact ih hr k2 (by simpa using hk)
      · rw [if_neg hb] at h
        cases h

theorem last_written_spec (lines : List (List Char)) :
    ∀ j, last_written lines = some j →
      j < lines.length ∧ ¬ trim (lines.getD j []) = [] ∧
        ∀ k, j < k → k < lines.length → trim (lines.getD k []) = [] := by
  induction lines with
  | nil =>
    intro j h
    cases h
  | cons l rest ih =>
    intro j h
    rw [last_written] at h
    cases hr : last_written rest with
    | some j2 =>
      rw [hr] at h
      have hj : j = j2 + 1 := by simpa using h.symm
      subst hj
      obtain ⟨h1, h2, h3⟩ := ih j2 hr
      refine ⟨by simpa using by omega, ?_, ?_⟩
      · rw [List.getD_cons_succ]
        exact h2
      · intro k hk hk2
        cases k with
        | zero => exact absurd hk (by omega)
        | succ k2 =>
          rw [List.getD_cons_succ]
          exact h3 k2 (by omega) (by simpa using hk2)
    | none =>
      rw [hr] at h
      by_cases hb : trim l = []
      · rw [if_pos hb] at h
        cases h
      · rw [if_neg hb] at h
        have hj : j = 0 := by simpa using h.symm
        subst hj
        refine ⟨by simp, by simpa using hb, ?_⟩
        intro k hk hk2
        cases k with
        | zero => exact absurd hk (by omega)
        | succ k2 =>
          rw [List.getD_cons_succ]
          exact last_written_none rest hr k2 (by simpa using hk2)

theorem convert_lines_length (fw lw : Option Nat) :
    ∀ (lines : List (List Char)) (off : Nat),
      (convert_lines fw lw off lines).length = lines.length := by
  intro lines
  induction lines with
  | nil => intro off; rfl
  | cons l rest ih =>
    intro off
    simp [convert_lines, ih]

theorem convert_lines_getD (fw lw : Option Nat) :
    ∀ (lines : List (List Char)) (off k : Nat), k < lines.length →
      (convert_lines fw lw off lines).getD k ⟨Alignment.justify, []⟩ =
        convert_line fw lw (off + k) (lines.getD k []) := by
  intro lines
  induction lines with
  | nil =>
    intro off k hk
    simp at hk
  | cons l rest ih =>
    intro off k hk
    cases k with
    | zero => simp [convert_lines]
    | succ k2 =>
      rw [convert_lines]
      rw [List.getD_cons_succ, List.getD_cons_succ,
        ih (off + 1) k2 (by simpa using hk)]
      congr 1
      omega

theorem add_markdown_paragraph_align (line : List Char) (al : Alignment)
    (fi : Bool) (pt : Int) :
    (add_markdown_paragraph line al fi pt).align = al := by
  unfold add_markdown_paragraph
  by_cases h : (normalize_heading line).1 = [] <;> simp [h]

/-- Every run of a forced-italic 8 pt paragraph is italic at 16 half
points. -/
theorem add_markdown_runs_forced (line : List Char) (al : Alignment) :
    ∀ r ∈ runsOf (add_markdown_paragraph line al true 8),
      r.italic = true ∧ r.sizeHalf = 16 := by
  intro r hr
  unfold add_markdown_paragraph at hr
  by_cases h : (normalize_heading line).1 = []
  · rw [if_pos h] at hr
    simp [runsOf] at hr
  · rw [if_neg h, runsOf_map_run] at hr
    exact scanChars_runs_prop true 8
      (fun r => r.italic = true ∧ r.sizeHalf = 16)
      (by
        intro text b i
        exact ⟨by simp, by norm_num⟩)
      [] [] _ _ _ (by simp) r hr

end ConvertToDocx

namespace Claims

open RadiologyTemplates

theorem convert_line_eq_last (fw : Option Nat) (j : Nat) (line : List Char) :
    ConvertToDocx.convert_line fw (some j) j line =
      ConvertToDocx.add_markdown_paragraph line
        ConvertToDocx.Alignment.center true 8 := by
  unfold ConvertToDocx.convert_line
  simp

theorem convert_line_eq_first (i j : Nat) (hne : ¬ j = i) (line : List Char) :
    ConvertToDocx.convert_line (some i) (some j) i line =
      ConvertToDocx.add_markdown_paragraph line
        ConvertToDocx.Alignment.center false 10 := by
  unfold ConvertToDocx.convert_line
  have h2 : ¬ ((some j : Option Nat) = some i) := by simpa using hne
  simp [h2]

theorem convert_line_eq_other (i j k : Nat) (hki : ¬ k = i) (hkj : ¬ k = j)
    (line : List Char) :
    ConvertToDocx.convert_line (some i) (some j) k line =
      ConvertToDocx.add_markdown_paragraph line
        ConvertToDocx.Alignment.justify false 10 := by
  unfold ConvertToDocx.convert_line
  have h1 : ¬ ((some i : Option Nat) = some k) := by
    simpa using fun h => hki h.symm
  have h2 : ¬ ((some j : Option Nat) = some k) := by
    simpa using fun h => hkj h.symm
  simp [h1, h2]

theorem countP_one_exists (p : List Char → Bool) (lines : List (List Char)) :
    1 ≤ lines.countP p →
      ∃ k, k < lines.length ∧ p (lines.getD k []) = true := by
  induction lines with
  | nil =>
    intro h
    simp [List.countP_nil] at h
  | cons l rest ih =>
    intro h
    by_cases hp : p l = true
    · exact ⟨0, by simp, by simpa using hp⟩
    · rw [List.countP_cons, if_neg hp] at h
      obtain ⟨k, hk, hpk⟩ := ih (by omega)
      exact ⟨k + 1, by simpa using hk, by simpa using hpk⟩

theorem countP_two_exists (p : List Char → Bool) (lines : List (List Char)) :
    2 ≤ lines.countP p →
      ∃ k1 k2, k1 < k2 ∧ k2 < lines.length ∧
        p (lines.getD k1 []) = true ∧ p (lines.getD k2 []) = true := by
  induction lines with
  | nil =>
    intro h
    simp [List.countP_nil] at h
  | cons l rest ih =>
    intro h
    rw [List.countP_cons] at h
    by_cases hp : p l = true
    · rw [if_pos hp] at h
      obtain ⟨k, hk, hpk⟩ := countP_one_exists p rest (by omega)
      exact ⟨0, k + 1, by omega, by simpa using hk,
        by simpa using hp, by simpa using hpk⟩
    · rw [if_neg hp] at h
      obtain ⟨k1, k2, h12, hk2, hp1, hp2⟩ := ih (by omega)
      exact ⟨k1 + 1, k2 + 1, by omega, by simpa using hk2,
        by simpa using hp1, by simpa using hp2⟩

/-- C2: for a Markdown source with at least two non-blank lines, the
writer's per-line overlay centers the first non-blank line at the base
size with no forced italic, centers the last non-blank line with italic
forced on every run at 8 points (16 half points), and converts every other
line fully justified at the base 10 points with no forced italic. -/
theorem C2_first_last_policy (content : List Char)
    (h2 : 2 ≤ (rustLines content).countP fun l => !(trim l).isEmpty) :
    ∃ i j, ConvertToDocx.first_written (rustLines content) = some i ∧
      ConvertToDocx.last_written (rustLines content) = some j ∧
      i < j ∧ j < (rustLines content).length ∧
      (ConvertToDocx.convert_file content).length = (rustLines content).length ∧
      (ConvertToDocx.convert_file content).getD i ⟨ConvertToDocx.Alignment.justify, []⟩ =
        ConvertToDocx.add_markdown_paragraph ((rustLines content).getD i [])
          ConvertToDocx.Alignment.center false 10 ∧
      (ConvertToDocx.convert_file content).getD j ⟨ConvertToDocx.Alignment.justify, []⟩ =
        ConvertToDocx.add_markdown_paragraph ((rustLines content).getD j [])
          ConvertToDocx.Alignment.center true 8 ∧
      ((ConvertToDocx.convert_file content).getD i
          ⟨ConvertToDocx.Alignment.justify, []⟩).align =
        ConvertToDocx.Alignment.center ∧
      ((ConvertToDocx.convert_file content).getD j
          ⟨ConvertToDocx.Alignment.justify, []⟩).align =
        ConvertToDocx.Alignment.center ∧
      (∀ r ∈ ConvertToDocx.runsOf ((ConvertToDocx.convert_file content).getD j
          ⟨ConvertToDocx.Alignment.justify, []⟩),
        r.italic = true ∧ r.sizeHalf = 16) ∧
      (∀ k, k < (rustLines content).length → ¬ k = i → ¬ k = j →
        (ConvertToDocx.convert_file content).getD k
            ⟨ConvertToDocx.Alignment.justify, []⟩ =
          ConvertToDocx.add_markdown_paragraph ((rustLines content).getD k [])
            ConvertToDocx.Alignment.justify false 10 ∧
        ((ConvertToDocx.convert_file content).getD k
            ⟨ConvertToDocx.Alignment.justify, []⟩).align =
          ConvertToDocx.Alignment.justify) := by
  have hblank : ∀ l : List Char, ((!(trim l).isEmpty) = true) ↔ ¬ trim l = [] := by
    intro l
    simp [List.isEmpty_iff]
  obtain ⟨k1, k2, h12, hk2len, hp1, hp2⟩ :=
    countP_two_exists (fun l => !(trim l).isEmpty) (rustLines content) h2
  rw [hblank] at hp1 hp2
  cases hfw : ConvertToDocx.first_written (rustLines content) with
  | none =>
    exact absurd (ConvertToDocx.first_written_none (rustLines content) hfw k2 hk2len) hp2
  | some i =>
    cases hlw : ConvertToDocx.last_written (rustLines content) with
    | none =>
      exact absurd (ConvertToDocx.last_written_none (rustLines content) hlw k2 hk2len) hp2
    | some j =>
      obtain ⟨hilen, hinb, hifirst⟩ :=
        ConvertToDocx.first_written_spec (rustLines content) i hfw
      obtain ⟨hjlen, hjnb, hjlast⟩ :=
        ConvertToDocx.last_written_spec (rustLines content) j hlw
      have hik1 : i ≤ k1 := by
        by_contra hc
        exact hp1 (hifirst k1 (by omega))
      have hk2j : k2 ≤ j := by
        by_contra hc
        exact hp2 (hjlast k2 (by omega) hk2len)
      have hij : i < j := by omega
      have hne : ¬ rustLines content = [] := by
        intro hc
        rw [hc] at hjlen
        simp at hjlen
      have hcf : ConvertToDocx.convert_file content =
          ConvertToDocx.convert_lines (some i) (some j) 0 (rustLines content) := by
        simp only [ConvertToDocx.convert_file]
        rw [if_neg hne, hfw, hlw]
      have hgetD : ∀ k, k < (rustLines content).length →
          (ConvertToDocx.convert_file content).getD k
              ⟨ConvertToDocx.Alignment.justify, []⟩ =
            ConvertToDocx.convert_line (some i) (some j) k
              ((rustLines content).getD k []) := by
        intro k hk
        rw [hcf, ConvertToDocx.convert_lines_getD (some i) (some j) _ 0 k hk]
        simp
      have hji : ¬ j = i := by omega
      refine ⟨i, j, rfl, rfl, hij, hjlen, ?_, ?_, ?_, ?_, ?_, ?_, ?_⟩
      · rw [hcf]
        exact ConvertToDocx.convert_lines_length _ _ _ 0
      · rw [hgetD i hilen, convert_line_eq_first i j hji]
      · rw [hgetD j hjlen, convert_line_eq_last (some i) j]
      · rw [hgetD i hilen, convert_line_eq_first i j hji]
        exact ConvertToDocx.add_markdown_paragraph_align _ _ _ _
      · rw [hgetD j hjlen, convert_line_eq_last (some i) j]
        exact ConvertToDocx.add_markdown_paragraph_align _ _ _ _
      · rw [hgetD j hjlen, convert_line_eq_last (some i) j]
        exact ConvertToDocx.add_markdown_runs_forced _ _
      · intro k hk hki hkj
        rw [hgetD k hk, convert_line_eq_other i j k hki hkj]
        exact ⟨rfl, ConvertToDocx.add_markdown_paragraph_align _ _ _ _⟩

/-- C2 witness: the policy at the two-line source consisting of the letters
a and b on separate lines. -/
theorem C2_policy_witness :
    (∃ i j, ConvertToDocx.first_written (rustLines (("a\nb").toList)) = some i ∧
      ConvertToDocx.last_written (rustLines (("a\nb").toList)) = some j ∧
      i < j ∧ j < (rustLines (("a\nb").toList)).length ∧
      (ConvertToDocx.convert_file (("a\nb").toList)).length =
        (rustLines (("a\nb").toList)).length ∧
      (ConvertToDocx.convert_file (("a\nb").toList)).getD i
          ⟨ConvertToDocx.Alignment.justify, []⟩ =
        ConvertToDocx.add_markdown_paragraph
          ((rustLines (("a\nb").toList)).getD i [])
          ConvertToDocx.Alignment.center false 10 ∧
      (ConvertToDocx.convert_file (("a\nb").toList)).getD j
          ⟨ConvertToDocx.Alignment.justify, []⟩ =
        ConvertToDocx.add_markdown_paragraph
          ((rustLines (("a\nb").toList)).getD j [])
          ConvertToDocx.Alignment.center true 8 ∧
      ((ConvertToDocx.convert_file (("a\nb").toList)).getD i
          ⟨ConvertToDocx.Alignment.justify, []⟩).align =
        ConvertToDocx.Alignment.center ∧
      ((ConvertToDocx.convert_file (("a\nb").toList)).getD j
          ⟨ConvertToDocx.Alignment.justify, []⟩).align =
        ConvertToDocx.Alignment.center ∧
      (∀ r ∈ ConvertToDocx.runsOf ((ConvertToDocx.convert_file (("a\nb").toList)).getD j
          ⟨ConvertToDocx.Alignment.justify, []⟩),
        r.italic = true ∧ r.sizeHalf = 16) ∧
      (∀ k, k < (rustLines (("a\nb").toList)).length → ¬ k = i → ¬ k = j →
        (ConvertToDocx.convert_file (("a\nb").toList)).getD k
            ⟨ConvertToDocx.Alignment.justify, []⟩ =
          ConvertToDocx.add_markdown_paragraph
            ((rustLines (("a\nb").toList)).getD k [])
            ConvertToDocx.Alignment.justify false 10 ∧
        ((ConvertToDocx.convert_file (("a\nb").toList)).getD k
            ⟨ConvertToDocx.Alignment.justify, []⟩).align =
          ConvertToDocx.Alignment.justify)) :=
  C2_first_last_policy (("a\nb").toList) (by decide)

end Claims
